import Mathlib

/-!
Verification of the HashedRPZ C core (src/c/hashedrpz.c) against its
natural-language specification.

The embedding models the two public operations hrpz_hash and
hrpz_hashwildcard.  Strings are lists of characters; the caller-supplied
output buffer is a list of exactly finallen characters, and the C writes
(memzero, memmove, memcpy) are list surgery on it.  The BLAKE3 digest
followed by base32-hex-lowercase encoding is external to the repository
(the spec lists both as out of scope), so it is abstracted as a function
from the hashed byte string and the digest size to the encoded label,
together with the facts the C code relies on: the encoding of an m-byte
digest is ceil(8m/5) characters, none of which is NUL or a dot.
size_t arithmetic that can wrap (the 255 - 16 - 1 - strlen(origindomain)
budget) is taken modulo 2^64.  The single out-of-bounds read in the C
code (reading lefthandside[SIZE_MAX] for the input ".") makes the model
return none; every defined execution returns some result.
-/

set_option maxRecDepth 100000

/-- The NUL character, used as buffer filler and string terminator. -/
def NUL : Char := Char.ofNat 0

/-- Error enumeration of hashedrpz.h (enum HRPZ_ERR). -/
inductive HErr where
  | NONE
  | INVALID_INPUTS
  | INVALID_ORIGIN_DOMAIN
  | EMPTY_LABEL
  | WILDCARD_NOT_AT_START
  | TOO_LONG
  | EMPTY_SUBLABEL
deriving DecidableEq

/-- Length of the unpadded RFC 4648 base32 encoding of m bytes:
ceil(8*m/5) characters. -/
def b32len (m : Nat) : Nat := (8 * m + 4) / 5

/-- Digest-size selection of hrpz_hash (lines 246-255): the label length
m is bumped to 4, 8 or 16 bytes of digest. -/
def digestSize (m : Nat) : Nat :=
  if m < 4 then 4 else if m < 8 then 8 else 16

/-- The external digest-and-encode stage: BLAKE3 keyed by the hasher key
over the cumulative suffix, finalized to m bytes, then base32-hex
lowercase encoded.  Both parts are outside this repository; the model
keeps them abstract together with the facts the C code uses: the encoded
string of an m-byte digest has ceil(8m/5) characters (so strlen of the
zeroed b32 buffer is that length) and contains no NUL and no dot. -/
structure Enc where
  enc : List Char → Nat → List Char
  len_enc : ∀ s m, (enc s m).length = b32len m
  nul_not_mem : ∀ s m, NUL ∉ enc s m
  dot_not_mem : ∀ s m, '.' ∉ enc s m

/-- The mutable state of the label walk in hrpz_hash: the lhs and label
offsets, the output buffer (always finallen characters), the running
length finalcur, and the trace of callback invocations, each recording
the subdomain pointer &lefthandside[lhs] and the buffer string passed. -/
structure WalkSt where
  lhs : Nat
  label : Nat
  buf : List Char
  finalcur : Nat
  calls : List (List Char × List Char)
deriving DecidableEq

/-- The C string stored in a buffer: the characters before the first
NUL. -/
def cstr (buf : List Char) : List Char := buf.takeWhile (fun c => c ≠ NUL)

/-- The wildcard branch of the hrpz_hash loop (lines 204-229), entered
with the lhs offset already updated for the current character. -/
def starStep (input : List Char) (finallen i : Nat) (st1 : WalkSt) : HErr × WalkSt :=
  -- wildcard has to be at the start of the label and the only char in it
  if i ≠ 0 ∨ st1.label ≠ st1.lhs + 1 then
    (HErr.WILDCARD_NOT_AT_START, st1)
  else if finallen < st1.finalcur + 2 then
    (HErr.TOO_LONG, st1)
  else
    -- memmove(&final[2], final, finalcur); final[0] = '*'; final[1] = '.'
    let buf2 := '*' :: '.' :: (st1.buf.take st1.finalcur ++ st1.buf.drop (2 + st1.finalcur))
    let st2 : WalkSt := { st1 with buf := buf2, finalcur := st1.finalcur + 2 }
    (HErr.NONE, { st2 with calls := st2.calls ++ [(input.drop st1.lhs, cstr buf2)] })

/-- The label-emission part of the hrpz_hash loop (lines 236-315): hash
the cumulative suffix starting at the current lhs, prepend its encoding
to the buffer, apply both length checks, invoke the callback and either
break (i = 0) or continue with next. -/
def emitStep (E : Enc) (input : List Char) (lhslen maxdomainlen finallen i : Nat)
    (next : WalkSt → HErr × WalkSt) (st1 : WalkSt) : HErr × WalkSt :=
  if st1.label ≤ st1.lhs then
    (HErr.EMPTY_SUBLABEL, st1)
  else
    let m := digestSize (st1.label - st1.lhs)
    let b32 := E.enc ((input.take lhslen).drop st1.lhs) m
    let blen := b32.length
    if finallen < st1.finalcur + blen + 1 then
      (HErr.TOO_LONG, st1)
    else
      let buf2 :=
        if st1.finalcur = 0 then
          -- memcpy(final, b32, blen) into the still zeroed buffer
          b32 ++ st1.buf.drop blen
        else
          -- memmove(&final[blen+1], final, finalcur); final[blen] = '.'
          b32 ++ '.' :: (st1.buf.take st1.finalcur ++ st1.buf.drop (blen + 1 + st1.finalcur))
      let fc2 := if st1.finalcur = 0 then blen else st1.finalcur + blen + 1
      let st2 : WalkSt := { st1 with buf := buf2, finalcur := fc2 }
      if maxdomainlen ≤ fc2 then
        (HErr.TOO_LONG, st2)
      else
        let st3 : WalkSt :=
          { st2 with calls := st2.calls ++ [(input.drop st1.lhs, cstr buf2)], label := st1.lhs - 1 }
        if i = 0 then (HErr.NONE, st3) else next st3

/-- One iteration of the hrpz_hash label loop (lines 196-316) at index i.
next is the continuation for the following iteration (i - 1); it is
invoked only when i is not zero, matching the for loop that breaks at
zero. -/
def walkStep (E : Enc) (input : List Char) (lhslen maxdomainlen finallen : Nat)
    (i : Nat) (next : WalkSt → HErr × WalkSt) (st : WalkSt) : HErr × WalkSt :=
  let c := input.getD i NUL
  -- when no dot yet, this is the left hand side
  let lhs := if c ≠ '.' then i else st.lhs
  let st1 : WalkSt := { st with lhs := lhs }
  if c = '*' then
    starStep input finallen i st1
  else if c ≠ '.' ∧ i ≠ 0 then
    next st1
  else
    -- we hit a separator or the start of the lefthandside: hash and test
    emitStep E input lhslen maxdomainlen finallen i next st1

/-- The label loop of hrpz_hash, iterating i from the start offset down
to zero. -/
def walk (E : Enc) (input : List Char) (lhslen maxdomainlen finallen : Nat) :
    Nat → WalkSt → HErr × WalkSt
  | 0, st =>
      walkStep E input lhslen maxdomainlen finallen 0 (fun s => (HErr.NONE, s)) st
  | i + 1, st =>
      walkStep E input lhslen maxdomainlen finallen (i + 1)
        (walk E input lhslen maxdomainlen finallen i) st

/-- Result of a call: error code, final buffer contents, the final value
of the finalcur counter, and the callback trace. -/
structure HOut where
  err : HErr
  buf : List Char
  finalcur : Nat
  calls : List (List Char × List Char)
deriving DecidableEq

/-- The maximum domain length computed by hrpz_hash line 147 in size_t
arithmetic: 255 - 16 - 1 - strlen(origindomain), modulo 2^64. -/
def maxdOf (origindomain : List Char) : Nat :=
  (2 ^ 64 + 238 - origindomain.length % 2 ^ 64) % 2 ^ 64

/-- hrpz_hash (hashedrpz.c lines 112-319).  final0 is the caller buffer
contents on entry (finallen characters).  Returns none exactly when the
C code reads out of bounds: input "." strips the trailing dot, then
decrements lhs from 0 (wrapping to SIZE_MAX) and reads
lefthandside[SIZE_MAX]. -/
def hrpz_hash (E : Enc) (lefthandside origindomain : List Char)
    (final0 : List Char) (finallen : Nat) : Option HOut :=
  -- we need a place to put things back into and at least a TLD
  if finallen < 5 then some ⟨HErr.INVALID_INPUTS, final0, 0, []⟩
  else
    -- memzero(final, finallen)
    let final1 := List.replicate finallen NUL
    if origindomain = [] ∨ origindomain.getD 0 NUL = '.' then
      some ⟨HErr.INVALID_ORIGIN_DOMAIN, final1, 0, []⟩
    else
      -- size_t arithmetic: 255 - 16 - 1 - strlen(origindomain)
      let maxdomainlen := maxdOf origindomain
      let lhslen := lefthandside.length
      if lhslen = 0 then some ⟨HErr.EMPTY_LABEL, final1, 0, []⟩
      else
        let lhs := lhslen - 1
        if lefthandside.getD lhs NUL = '.' then
          -- ignore the final dot if it exists; lhslen--, lhs--
          if lhs = 0 then
            none
          else if lefthandside.getD (lhs - 1) NUL = '.' then
            some ⟨HErr.EMPTY_SUBLABEL, final1, 0, []⟩
          else
            let r := walk E lefthandside (lhslen - 1) maxdomainlen finallen (lhs - 1)
              ⟨lhs - 1, lhs, final1, 0, []⟩
            some ⟨r.1, r.2.buf, r.2.finalcur, r.2.calls⟩
        else
          let r := walk E lefthandside lhslen maxdomainlen finallen lhs
            ⟨lhs, lhs + 1, final1, 0, []⟩
          some ⟨r.1, r.2.buf, r.2.finalcur, r.2.calls⟩

/-- hrpz_hashwildcard (hashedrpz.c lines 329-344): delegate to hrpz_hash;
on TOO_LONG set iswildcard, memmove(&final[2], final, finallen-2) and
prepend "*.".  The boolean in the result is *iswildcard. -/
def hrpz_hashwildcard (E : Enc) (lefthandside origindomain : List Char)
    (final0 : List Char) (finallen : Nat) : Option (HOut × Bool) :=
  match hrpz_hash E lefthandside origindomain final0 finallen with
  | none => none
  | some r =>
    if r.err = HErr.TOO_LONG then
      some (⟨HErr.NONE, '*' :: '.' :: r.buf.take (finallen - 2), r.finalcur, r.calls⟩, true)
    else
      some (r, false)

/-- A concrete digest-and-encode instance for evaluating the model on
test inputs: every encoded label is the right number of letters a.
Error codes, callback counts and all length behaviour coincide with the
real BLAKE3 instantiation, because those depend only on the encoded
length. -/
def E0 : Enc where
  enc := fun _ m => List.replicate (b32len m) 'a'
  len_enc := fun _ _ => List.length_replicate _ _
  nul_not_mem := by
    intro s m h
    have := List.eq_of_mem_replicate h
    simp [NUL, Char.ext_iff] at this
  dot_not_mem := by
    intro s m h
    have := List.eq_of_mem_replicate h
    simp [Char.ext_iff] at this

/-! ## Unfolding equations for the walk -/

theorem walk_zero (E : Enc) (input : List Char) (ll md fl : Nat) (st : WalkSt) :
    walk E input ll md fl 0 st =
      walkStep E input ll md fl 0 (fun s => (HErr.NONE, s)) st := rfl

theorem walk_succ (E : Enc) (input : List Char) (ll md fl i : Nat) (st : WalkSt) :
    walk E input ll md fl (i + 1) st =
      walkStep E input ll md fl (i + 1) (walk E input ll md fl i) st := rfl

theorem walkStep_star {input : List Char} {i : Nat} (E : Enc) (ll md fl : Nat)
    (next : WalkSt → HErr × WalkSt) (st : WalkSt) (h : input.getD i NUL = '*') :
    walkStep E input ll md fl i next st = starStep input fl i { st with lhs := i } := by
  unfold walkStep
  rw [h]
  simp

theorem walkStep_dot {input : List Char} {i : Nat} (E : Enc) (ll md fl : Nat)
    (next : WalkSt → HErr × WalkSt) (st : WalkSt) (h : input.getD i NUL = '.') :
    walkStep E input ll md fl i next st = emitStep E input ll md fl i next st := by
  unfold walkStep
  rw [h]
  simp

theorem walkStep_cont {input : List Char} {i : Nat} (E : Enc) (ll md fl : Nat)
    (next : WalkSt → HErr × WalkSt) (st : WalkSt) (h1 : input.getD i NUL ≠ '*')
    (h2 : input.getD i NUL ≠ '.') (h3 : i ≠ 0) :
    walkStep E input ll md fl i next st = next { st with lhs := i } := by
  unfold walkStep
  simp only [List.getD_eq_getElem?_getD] at h1 h2 ⊢
  simp [h1, h2, h3]

theorem walkStep_zero_emit {input : List Char} (E : Enc) (ll md fl : Nat)
    (next : WalkSt → HErr × WalkSt) (st : WalkSt) (h1 : input.getD 0 NUL ≠ '*')
    (h2 : input.getD 0 NUL ≠ '.') :
    walkStep E input ll md fl 0 next st =
      emitStep E input ll md fl 0 next { st with lhs := 0 } := by
  unfold walkStep
  simp only [List.getD_eq_getElem?_getD] at h1 h2 ⊢
  simp [h1, h2]

/-! ## The buffer invariant

Throughout the walk the buffer consists of the accumulated string
(finalcur characters, none of them NUL) followed by the zero filler laid
down by the initial memzero. -/

def BufOkP (finallen : Nat) (buf : List Char) (finalcur : Nat) : Prop :=
  ∃ content : List Char, content.length = finalcur ∧ finalcur ≤ finallen ∧
    (∀ c ∈ content, c ≠ NUL) ∧
    buf = content ++ List.replicate (finallen - finalcur) NUL

def BufOk (finallen : Nat) (st : WalkSt) : Prop := BufOkP finallen st.buf st.finalcur

theorem BufOk.length {fl : Nat} {st : WalkSt} (h : BufOk fl st) : st.buf.length = fl := by
  obtain ⟨content, hlen, hle, -, hbuf⟩ := h
  simp [hbuf, hlen]
  omega

theorem takeWhile_append_all {p : Char → Bool} {l l' : List Char}
    (h : ∀ c ∈ l, p c = true) :
    (l ++ l').takeWhile p = l ++ l'.takeWhile p := by
  induction l with
  | nil => simp
  | cons a l ih =>
    have ha := h a (by simp)
    have ihl := ih (fun c hc => h c (by simp [hc]))
    simp [List.takeWhile_cons, ha, ihl]

theorem takeWhile_replicate_nul (k : Nat) :
    (List.replicate k NUL).takeWhile (fun c => c ≠ NUL) = [] := by
  cases k with
  | zero => simp
  | succ k => simp [List.replicate_succ, List.takeWhile_cons]

theorem cstr_content {content : List Char} {k : Nat} (h : ∀ c ∈ content, c ≠ NUL) :
    cstr (content ++ List.replicate k NUL) = content := by
  unfold cstr
  rw [takeWhile_append_all (by simpa using h), takeWhile_replicate_nul, List.append_nil]

theorem BufOk.cstr_eq {fl : Nat} {st : WalkSt} (h : BufOk fl st) :
    cstr st.buf = st.buf.take st.finalcur := by
  obtain ⟨content, hlen, hle, hnul, hbuf⟩ := h
  rw [hbuf, cstr_content hnul, List.take_left' hlen]

theorem BufOk.cstr_len {fl : Nat} {st : WalkSt} (h : BufOk fl st) :
    (cstr st.buf).length = st.finalcur := by
  obtain ⟨content, hlen, hle, hnul, hbuf⟩ := h
  rw [hbuf, cstr_content hnul, hlen]

theorem BufOk.lhs_update {fl : Nat} {st : WalkSt} (h : BufOk fl st) (x : Nat) :
    BufOk fl { st with lhs := x } := h

/-! ## Branch equations for the two loop bodies

Abbreviations for the quantities computed during one label emission: the
encoded digest of the cumulative suffix, the new buffer, the new
finalcur, and the state after the callback. -/

def encOf (E : Enc) (input : List Char) (ll : Nat) (st : WalkSt) : List Char :=
  E.enc ((input.take ll).drop st.lhs) (digestSize (st.label - st.lhs))

def emitBuf (E : Enc) (input : List Char) (ll : Nat) (st : WalkSt) : List Char :=
  if st.finalcur = 0 then
    encOf E input ll st ++ st.buf.drop (encOf E input ll st).length
  else
    encOf E input ll st ++ '.' ::
      (st.buf.take st.finalcur ++ st.buf.drop ((encOf E input ll st).length + 1 + st.finalcur))

def emitFc (E : Enc) (input : List Char) (ll : Nat) (st : WalkSt) : Nat :=
  if st.finalcur = 0 then (encOf E input ll st).length
  else st.finalcur + (encOf E input ll st).length + 1

def emitSt (E : Enc) (input : List Char) (ll : Nat) (st : WalkSt) : WalkSt :=
  ⟨st.lhs, st.lhs - 1, emitBuf E input ll st, emitFc E input ll st,
    st.calls ++ [(input.drop st.lhs, cstr (emitBuf E input ll st))]⟩

theorem starStep_err {input : List Char} {fl i : Nat} {st : WalkSt}
    (h : i ≠ 0 ∨ st.label ≠ st.lhs + 1) :
    starStep input fl i st = (HErr.WILDCARD_NOT_AT_START, st) := by
  unfold starStep
  rw [if_pos h]

theorem starStep_toolong {input : List Char} {fl i : Nat} {st : WalkSt}
    (h1 : ¬(i ≠ 0 ∨ st.label ≠ st.lhs + 1)) (h2 : fl < st.finalcur + 2) :
    starStep input fl i st = (HErr.TOO_LONG, st) := by
  unfold starStep
  rw [if_neg h1, if_pos h2]

theorem starStep_ok {input : List Char} {fl i : Nat} {st : WalkSt}
    (h1 : ¬(i ≠ 0 ∨ st.label ≠ st.lhs + 1)) (h2 : ¬(fl < st.finalcur + 2)) :
    starStep input fl i st = (HErr.NONE,
      ⟨st.lhs, st.label,
        '*' :: '.' :: (st.buf.take st.finalcur ++ st.buf.drop (2 + st.finalcur)),
        st.finalcur + 2,
        st.calls ++ [(input.drop st.lhs,
          cstr ('*' :: '.' :: (st.buf.take st.finalcur ++ st.buf.drop (2 + st.finalcur))))]⟩) := by
  unfold starStep
  rw [if_neg h1, if_neg h2]

theorem emitStep_empty {E : Enc} {input : List Char} {ll md fl i : Nat}
    {next : WalkSt → HErr × WalkSt} {st : WalkSt} (h : st.label ≤ st.lhs) :
    emitStep E input ll md fl i next st = (HErr.EMPTY_SUBLABEL, st) := by
  unfold emitStep
  rw [if_pos h]

theorem emitStep_toolong_cap {E : Enc} {input : List Char} {ll md fl i : Nat}
    {next : WalkSt → HErr × WalkSt} {st : WalkSt} (h1 : ¬st.label ≤ st.lhs)
    (h2 : fl < st.finalcur + (encOf E input ll st).length + 1) :
    emitStep E input ll md fl i next st = (HErr.TOO_LONG, st) := by
  unfold emitStep
  simp only []
  unfold encOf at h2
  rw [if_neg h1, if_pos h2]

theorem emitStep_toolong_budget {E : Enc} {input : List Char} {ll md fl i : Nat}
    {next : WalkSt → HErr × WalkSt} {st : WalkSt} (h1 : ¬st.label ≤ st.lhs)
    (h2 : ¬fl < st.finalcur + (encOf E input ll st).length + 1)
    (h3 : md ≤ emitFc E input ll st) :
    emitStep E input ll md fl i next st =
      (HErr.TOO_LONG, { st with buf := emitBuf E input ll st, finalcur := emitFc E input ll st }) := by
  unfold emitStep
  simp only []
  unfold encOf at h2
  unfold emitFc encOf at h3
  unfold emitBuf emitFc encOf
  rw [if_neg h1, if_neg h2, if_pos h3]

theorem emitStep_break {E : Enc} {input : List Char} {ll md fl : Nat}
    {next : WalkSt → HErr × WalkSt} {st : WalkSt} (h1 : ¬st.label ≤ st.lhs)
    (h2 : ¬fl < st.finalcur + (encOf E input ll st).length + 1)
    (h3 : ¬md ≤ emitFc E input ll st) :
    emitStep E input ll md fl 0 next st = (HErr.NONE, emitSt E input ll st) := by
  unfold emitStep
  simp only []
  unfold encOf at h2
  unfold emitFc encOf at h3
  unfold emitSt emitBuf emitFc encOf
  rw [if_neg h1, if_neg h2, if_neg h3]
  simp

theorem emitStep_next {E : Enc} {input : List Char} {ll md fl i : Nat}
    {next : WalkSt → HErr × WalkSt} {st : WalkSt} (h1 : ¬st.label ≤ st.lhs)
    (h2 : ¬fl < st.finalcur + (encOf E input ll st).length + 1)
    (h3 : ¬md ≤ emitFc E input ll st) (h4 : i ≠ 0) :
    emitStep E input ll md fl i next st = next (emitSt E input ll st) := by
  unfold emitStep
  simp only []
  unfold encOf at h2
  unfold emitFc encOf at h3
  unfold emitSt emitBuf emitFc encOf
  rw [if_neg h1, if_neg h2, if_neg h3, if_neg h4]

/-! ## Preservation of the buffer invariant -/

theorem BufOkP.cstr_parts {fl : Nat} {buf : List Char} {fc : Nat} (h : BufOkP fl buf fc) :
    cstr buf = buf.take fc ∧ (cstr buf).length = fc := by
  obtain ⟨content, hlen, hle, hnul, hbuf⟩ := h
  constructor
  · rw [hbuf, cstr_content hnul, List.take_left' hlen]
  · rw [hbuf, cstr_content hnul, hlen]

theorem star_BufOkP {fl : Nat} {st : WalkSt} (h : BufOk fl st)
    (h2 : ¬fl < st.finalcur + 2) :
    BufOkP fl ('*' :: '.' :: (st.buf.take st.finalcur ++ st.buf.drop (2 + st.finalcur)))
      (st.finalcur + 2) := by
  obtain ⟨content, hlen, hle, hnul, hbuf⟩ := h
  have htake : st.buf.take st.finalcur = content := by
    rw [hbuf, List.take_left' hlen]
  have hdrop : st.buf.drop (2 + st.finalcur) = List.replicate (fl - st.finalcur - 2) NUL := by
    rw [hbuf, Nat.add_comm 2 st.finalcur, ← List.drop_drop,
      List.drop_left' hlen, List.drop_replicate]
  refine ⟨'*' :: '.' :: content, by simp [hlen], by omega, ?_, ?_⟩
  · intro c hc
    simp only [List.mem_cons] at hc
    rcases hc with h | h | h
    · simp [h, NUL, Char.ext_iff]
    · simp [h, NUL, Char.ext_iff]
    · exact hnul c h
  · rw [htake, hdrop]
    simp only [List.cons_append]
    congr 3

theorem star_cstr {fl : Nat} {st : WalkSt} (h : BufOk fl st)
    (h2 : ¬fl < st.finalcur + 2) :
    cstr ('*' :: '.' :: (st.buf.take st.finalcur ++ st.buf.drop (2 + st.finalcur))) =
      '*' :: '.' :: cstr st.buf := by
  obtain ⟨content, hlen, hle, hnul, hbuf⟩ := h
  have htake : st.buf.take st.finalcur = content := by
    rw [hbuf, List.take_left' hlen]
  have hdrop : st.buf.drop (2 + st.finalcur) = List.replicate (fl - st.finalcur - 2) NUL := by
    rw [hbuf, Nat.add_comm 2 st.finalcur, ← List.drop_drop,
      List.drop_left' hlen, List.drop_replicate]
  rw [htake, hdrop, hbuf, cstr_content hnul]
  have : ('*' : Char) :: '.' :: (content ++ List.replicate (fl - st.finalcur - 2) NUL) =
      ('*' :: '.' :: content) ++ List.replicate (fl - st.finalcur - 2) NUL := by simp
  rw [this, cstr_content]
  intro c hc
  simp only [List.mem_cons] at hc
  rcases hc with h | h | h
  · simp [h, NUL, Char.ext_iff]
  · simp [h, NUL, Char.ext_iff]
  · exact hnul c h

theorem emit_BufOkP {E : Enc} {input : List Char} {ll fl : Nat} {st : WalkSt}
    (h : BufOk fl st)
    (h2 : ¬fl < st.finalcur + (encOf E input ll st).length + 1) :
    BufOkP fl (emitBuf E input ll st) (emitFc E input ll st) := by
  obtain ⟨content, hlen, hle, hnul, hbuf⟩ := h
  have hb32nul : ∀ c ∈ encOf E input ll st, c ≠ NUL := by
    intro c hc hcn
    exact E.nul_not_mem _ _ (hcn ▸ hc)
  by_cases hz : st.finalcur = 0
  · have hcontent : content = [] := List.eq_nil_of_length_eq_zero (hz ▸ hlen)
    have hbuf' : st.buf = List.replicate fl NUL := by
      rw [hbuf, hcontent, List.nil_append, hz]
      simp
    refine ⟨encOf E input ll st, ?_, ?_, hb32nul, ?_⟩
    · simp [emitFc, hz]
    · simp [emitFc, hz]; omega
    · rw [emitBuf, if_pos hz, emitFc, if_pos hz, hbuf', List.drop_replicate]
  · refine ⟨encOf E input ll st ++ '.' :: content, ?_, ?_, ?_, ?_⟩
    · simp [emitFc, hz, hlen]
      omega
    · simp [emitFc, hz]
      omega
    · intro c hc
      rcases List.mem_append.mp hc with hcm | hcm
      · exact hb32nul c hcm
      · simp only [List.mem_cons] at hcm
        rcases hcm with hcm | hcm
        · simp [hcm, NUL, Char.ext_iff]
        · exact hnul c hcm
    · have htake : st.buf.take st.finalcur = content := by
        rw [hbuf, List.take_left' hlen]
      have hdrop : st.buf.drop ((encOf E input ll st).length + 1 + st.finalcur) =
          List.replicate (fl - st.finalcur - ((encOf E input ll st).length + 1)) NUL := by
        rw [hbuf, Nat.add_comm _ st.finalcur, ← List.drop_drop,
          List.drop_left' hlen, List.drop_replicate]
      rw [emitBuf, if_neg hz, emitFc, if_neg hz, htake, hdrop]
      simp only [List.append_assoc, List.cons_append]
      congr 4
      omega

theorem emit_cstr {E : Enc} {input : List Char} {ll fl : Nat} {st : WalkSt}
    (h : BufOk fl st)
    (h2 : ¬fl < st.finalcur + (encOf E input ll st).length + 1) :
    cstr (emitBuf E input ll st) =
      encOf E input ll st ++ (if st.finalcur = 0 then [] else '.' :: cstr st.buf) := by
  have hOk := @emit_BufOkP E input ll fl st h h2
  obtain ⟨content, hlen, hle, hnul, hbuf⟩ := h
  have hb32nul : ∀ c ∈ encOf E input ll st, c ≠ NUL := by
    intro c hc hcn
    exact E.nul_not_mem _ _ (hcn ▸ hc)
  by_cases hz : st.finalcur = 0
  · have hcontent : content = [] := List.eq_nil_of_length_eq_zero (hz ▸ hlen)
    have hbuf' : st.buf = List.replicate fl NUL := by
      rw [hbuf, hcontent, List.nil_append, hz]
      simp
    rw [emitBuf, if_pos hz, hbuf', List.drop_replicate, cstr_content hb32nul, if_pos hz,
      List.append_nil]
  · have htake : st.buf.take st.finalcur = content := by
      rw [hbuf, List.take_left' hlen]
    have hdrop : st.buf.drop ((encOf E input ll st).length + 1 + st.finalcur) =
        List.replicate (fl - st.finalcur - ((encOf E input ll st).length + 1)) NUL := by
      rw [hbuf, Nat.add_comm _ st.finalcur, ← List.drop_drop,
        List.drop_left' hlen, List.drop_replicate]
    rw [emitBuf, if_neg hz, htake, hdrop, if_neg hz, hbuf, cstr_content hnul]
    have hsplit : encOf E input ll st ++ '.' ::
        (content ++ List.replicate (fl - st.finalcur - ((encOf E input ll st).length + 1)) NUL) =
        (encOf E input ll st ++ '.' :: content) ++
          List.replicate (fl - st.finalcur - ((encOf E input ll st).length + 1)) NUL := by
      simp
    rw [hsplit, cstr_content]
    intro c hc
    rcases List.mem_append.mp hc with hcm | hcm
    · exact hb32nul c hcm
    · simp only [List.mem_cons] at hcm
      rcases hcm with hcm | hcm
      · simp [hcm, NUL, Char.ext_iff]
      · exact hnul c hcm

theorem starStep_BufOk {input : List Char} {fl i : Nat} {st : WalkSt}
    (h : BufOk fl st) : BufOk fl (starStep input fl i st).2 := by
  by_cases h1 : i ≠ 0 ∨ st.label ≠ st.lhs + 1
  · rw [starStep_err h1]; exact h
  · by_cases h2 : fl < st.finalcur + 2
    · rw [starStep_toolong h1 h2]; exact h
    · rw [starStep_ok h1 h2]; exact star_BufOkP h h2

theorem emitStep_BufOk {E : Enc} {input : List Char} {ll md fl i : Nat}
    {next : WalkSt → HErr × WalkSt} {st : WalkSt}
    (h : BufOk fl st) (hnext : ∀ s, BufOk fl s → BufOk fl (next s).2) :
    BufOk fl (emitStep E input ll md fl i next st).2 := by
  by_cases h1 : st.label ≤ st.lhs
  · rw [emitStep_empty h1]; exact h
  · by_cases h2 : fl < st.finalcur + (encOf E input ll st).length + 1
    · rw [emitStep_toolong_cap h1 h2]; exact h
    · by_cases h3 : md ≤ emitFc E input ll st
      · rw [emitStep_toolong_budget h1 h2 h3]; exact emit_BufOkP h h2
      · by_cases h4 : i = 0
        · subst h4
          rw [emitStep_break h1 h2 h3]
          exact emit_BufOkP h h2
        · rw [emitStep_next h1 h2 h3 h4]
          exact hnext _ (emit_BufOkP h h2)

theorem walkStep_BufOk {E : Enc} {input : List Char} {ll md fl i : Nat}
    {next : WalkSt → HErr × WalkSt} {st : WalkSt}
    (h : BufOk fl st) (hnext : ∀ s, BufOk fl s → BufOk fl (next s).2) :
    BufOk fl (walkStep E input ll md fl i next st).2 := by
  by_cases hstar : input.getD i NUL = '*'
  · rw [walkStep_star E ll md fl next st hstar]
    exact starStep_BufOk h
  · by_cases hdot : input.getD i NUL = '.'
    · rw [walkStep_dot E ll md fl next st hdot]
      exact emitStep_BufOk h hnext
    · by_cases hi : i = 0
      · subst hi
        rw [walkStep_zero_emit E ll md fl next st hstar hdot]
        exact emitStep_BufOk h hnext
      · rw [walkStep_cont E ll md fl next st hstar hdot hi]
        exact hnext _ h

theorem walk_BufOk {E : Enc} {input : List Char} {ll md fl : Nat} {i : Nat} {st : WalkSt}
    (h : BufOk fl st) : BufOk fl (walk E input ll md fl i st).2 := by
  induction i generalizing st with
  | zero => exact walkStep_BufOk h (fun s hs => hs)
  | succ i ih => exact walkStep_BufOk h (fun s hs => ih hs)

/-! ## Bound on finalcur for successful walks

On entry to each iteration either nothing has been written yet or the
previous label passed the maxdomainlen check, so finalcur < maxdomainlen.
A NONE exit then leaves finalcur < maxdomainlen (normal break),
finalcur at most maxdomainlen + 1 (in-walk wildcard on top of a written
buffer) or exactly 2 (bare wildcard). -/

theorem emitStep_fcBound {E : Enc} {input : List Char} {ll md fl i : Nat}
    {next : WalkSt → HErr × WalkSt} {st : WalkSt}
    (hnext : i ≠ 0 → ∀ s, (s.finalcur = 0 ∨ s.finalcur < md) → (next s).1 = HErr.NONE →
      (next s).2.finalcur ≤ md + 1 ∨ (next s).2.finalcur = 2)
    (hres : (emitStep E input ll md fl i next st).1 = HErr.NONE) :
    (emitStep E input ll md fl i next st).2.finalcur ≤ md + 1 ∨
      (emitStep E input ll md fl i next st).2.finalcur = 2 := by
  by_cases h1 : st.label ≤ st.lhs
  · rw [emitStep_empty h1] at hres
    simp at hres
  · by_cases h2 : fl < st.finalcur + (encOf E input ll st).length + 1
    · rw [emitStep_toolong_cap h1 h2] at hres
      simp at hres
    · by_cases h3 : md ≤ emitFc E input ll st
      · rw [emitStep_toolong_budget h1 h2 h3] at hres
        simp at hres
      · by_cases h4 : i = 0
        · subst h4
          rw [emitStep_break h1 h2 h3]
          left
          simp only [emitSt]
          omega
        · rw [emitStep_next h1 h2 h3 h4] at hres ⊢
          refine hnext h4 _ (Or.inr ?_) hres
          simp only [emitSt]
          omega

theorem walkStep_fcBound {E : Enc} {input : List Char} {ll md fl i : Nat}
    {next : WalkSt → HErr × WalkSt} {st : WalkSt}
    (h : st.finalcur = 0 ∨ st.finalcur < md)
    (hnext : i ≠ 0 → ∀ s, (s.finalcur = 0 ∨ s.finalcur < md) → (next s).1 = HErr.NONE →
      (next s).2.finalcur ≤ md + 1 ∨ (next s).2.finalcur = 2)
    (hres : (walkStep E input ll md fl i next st).1 = HErr.NONE) :
    (walkStep E input ll md fl i next st).2.finalcur ≤ md + 1 ∨
      (walkStep E input ll md fl i next st).2.finalcur = 2 := by
  by_cases hstar : input.getD i NUL = '*'
  · rw [walkStep_star E ll md fl next st hstar] at hres ⊢
    set st1 : WalkSt := { st with lhs := i } with hst1
    by_cases h1 : i ≠ 0 ∨ st1.label ≠ st1.lhs + 1
    · rw [starStep_err h1] at hres
      simp at hres
    · by_cases h2 : fl < st1.finalcur + 2
      · rw [starStep_toolong h1 h2] at hres
        simp at hres
      · rw [starStep_ok h1 h2]
        have hfc : st1.finalcur = st.finalcur := rfl
        rcases h with h | h
        · right
          simp [hfc, h]
        · left
          simp only []
          omega
  · by_cases hdot : input.getD i NUL = '.'
    · rw [walkStep_dot E ll md fl next st hdot] at hres ⊢
      exact emitStep_fcBound hnext hres
    · by_cases hi : i = 0
      · subst hi
        rw [walkStep_zero_emit E ll md fl next st hstar hdot] at hres ⊢
        exact emitStep_fcBound hnext hres
      · rw [walkStep_cont E ll md fl next st hstar hdot hi] at hres ⊢
        exact hnext hi _ h hres

theorem walk_fcBound {E : Enc} {input : List Char} {ll md fl : Nat} {i : Nat} {st : WalkSt}
    (h : st.finalcur = 0 ∨ st.finalcur < md)
    (hres : (walk E input ll md fl i st).1 = HErr.NONE) :
    (walk E input ll md fl i st).2.finalcur ≤ md + 1 ∨
      (walk E input ll md fl i st).2.finalcur = 2 := by
  induction i generalizing st with
  | zero => exact walkStep_fcBound h (fun hi => absurd rfl hi) hres
  | succ i ih => exact walkStep_fcBound h (fun _ s hs => ih hs) hres

/-! ## Callback counts

dotsUpto input i counts the dots at positions 1 .. i of the input.  A
successful walk starting at position i invokes the callback once per dot
in positions 1 .. i plus once for the final emission (or the wildcard)
at position 0; a failed walk invokes it at most dotsUpto input i times,
never for the failing label. -/

def dotsUpto (input : List Char) : Nat → Nat
  | 0 => 0
  | i + 1 => dotsUpto input i + (if input.getD (i + 1) NUL = '.' then 1 else 0)

theorem walk_calls_none {E : Enc} {input : List Char} {ll md fl : Nat} {i : Nat} {st : WalkSt}
    (hres : (walk E input ll md fl i st).1 = HErr.NONE) :
    (walk E input ll md fl i st).2.calls.length = st.calls.length + dotsUpto input i + 1 := by
  induction i generalizing st with
  | zero =>
    rw [walk_zero] at hres ⊢
    by_cases hstar : input.getD 0 NUL = '*'
    · rw [walkStep_star E ll md fl _ st hstar] at hres ⊢
      set st1 : WalkSt := { st with lhs := 0 } with hst1
      by_cases h1 : (0 : Nat) ≠ 0 ∨ st1.label ≠ st1.lhs + 1
      · rw [starStep_err h1] at hres
        simp at hres
      · by_cases h2 : fl < st1.finalcur + 2
        · rw [starStep_toolong h1 h2] at hres
          simp at hres
        · rw [starStep_ok h1 h2]
          simp [dotsUpto]
    · by_cases hdot : input.getD 0 NUL = '.'
      · rw [walkStep_dot E ll md fl _ st hdot] at hres ⊢
        by_cases h1 : st.label ≤ st.lhs
        · rw [emitStep_empty h1] at hres
          simp at hres
        · by_cases h2 : fl < st.finalcur + (encOf E input ll st).length + 1
          · rw [emitStep_toolong_cap h1 h2] at hres
            simp at hres
          · by_cases h3 : md ≤ emitFc E input ll st
            · rw [emitStep_toolong_budget h1 h2 h3] at hres
              simp at hres
            · rw [emitStep_break h1 h2 h3]
              simp [emitSt, dotsUpto]
      · rw [walkStep_zero_emit E ll md fl _ st hstar hdot] at hres ⊢
        set st1 : WalkSt := { st with lhs := 0 } with hst1
        by_cases h1 : st1.label ≤ st1.lhs
        · rw [emitStep_empty h1] at hres
          simp at hres
        · by_cases h2 : fl < st1.finalcur + (encOf E input ll st1).length + 1
          · rw [emitStep_toolong_cap h1 h2] at hres
            simp at hres
          · by_cases h3 : md ≤ emitFc E input ll st1
            · rw [emitStep_toolong_budget h1 h2 h3] at hres
              simp at hres
            · rw [emitStep_break h1 h2 h3]
              simp [emitSt, dotsUpto]
  | succ i ih =>
    rw [walk_succ] at hres ⊢
    by_cases hstar : input.getD (i + 1) NUL = '*'
    · rw [walkStep_star E ll md fl _ st hstar] at hres ⊢
      rw [starStep_err (Or.inl (Nat.succ_ne_zero i))] at hres
      simp at hres
    · by_cases hdot : input.getD (i + 1) NUL = '.'
      · rw [walkStep_dot E ll md fl _ st hdot] at hres ⊢
        by_cases h1 : st.label ≤ st.lhs
        · rw [emitStep_empty h1] at hres
          simp at hres
        · by_cases h2 : fl < st.finalcur + (encOf E input ll st).length + 1
          · rw [emitStep_toolong_cap h1 h2] at hres
            simp at hres
          · by_cases h3 : md ≤ emitFc E input ll st
            · rw [emitStep_toolong_budget h1 h2 h3] at hres
              simp at hres
            · rw [emitStep_next h1 h2 h3 (Nat.succ_ne_zero i)] at hres ⊢
              rw [ih hres]
              have hdot' := hdot
              simp only [List.getD_eq_getElem?_getD] at hdot'
              simp [emitSt, dotsUpto, hdot']
              omega
      · rw [walkStep_cont E ll md fl _ st hstar hdot (Nat.succ_ne_zero i)] at hres ⊢
        rw [ih hres]
        have hdot' := hdot
        simp only [List.getD_eq_getElem?_getD] at hdot'
        simp [dotsUpto, hdot']

theorem walk_calls_err {E : Enc} {input : List Char} {ll md fl : Nat} {i : Nat} {st : WalkSt}
    (hres : (walk E input ll md fl i st).1 ≠ HErr.NONE) :
    (walk E input ll md fl i st).2.calls.length ≤ st.calls.length + dotsUpto input i := by
  induction i generalizing st with
  | zero =>
    rw [walk_zero] at hres ⊢
    by_cases hstar : input.getD 0 NUL = '*'
    · rw [walkStep_star E ll md fl _ st hstar] at hres ⊢
      set st1 : WalkSt := { st with lhs := 0 } with hst1
      by_cases h1 : (0 : Nat) ≠ 0 ∨ st1.label ≠ st1.lhs + 1
      · rw [starStep_err h1]
        simp [dotsUpto]
      · by_cases h2 : fl < st1.finalcur + 2
        · rw [starStep_toolong h1 h2]
          simp [dotsUpto]
        · rw [starStep_ok h1 h2] at hres
          simp at hres
    · by_cases hdot : input.getD 0 NUL = '.'
      · rw [walkStep_dot E ll md fl _ st hdot] at hres ⊢
        by_cases h1 : st.label ≤ st.lhs
        · rw [emitStep_empty h1]
          simp [dotsUpto]
        · by_cases h2 : fl < st.finalcur + (encOf E input ll st).length + 1
          · rw [emitStep_toolong_cap h1 h2]
            simp [dotsUpto]
          · by_cases h3 : md ≤ emitFc E input ll st
            · rw [emitStep_toolong_budget h1 h2 h3]
              simp [dotsUpto]
            · rw [emitStep_break h1 h2 h3] at hres
              simp at hres
      · rw [walkStep_zero_emit E ll md fl _ st hstar hdot] at hres ⊢
        set st1 : WalkSt := { st with lhs := 0 } with hst1
        by_cases h1 : st1.label ≤ st1.lhs
        · rw [emitStep_empty h1]
          simp [dotsUpto]
        · by_cases h2 : fl < st1.finalcur + (encOf E input ll st1).length + 1
          · rw [emitStep_toolong_cap h1 h2]
            simp [dotsUpto]
          · by_cases h3 : md ≤ emitFc E input ll st1
            · rw [emitStep_toolong_budget h1 h2 h3]
              simp [dotsUpto]
            · rw [emitStep_break h1 h2 h3] at hres
              simp at hres
  | succ i ih =>
    rw [walk_succ] at hres ⊢
    by_cases hstar : input.getD (i + 1) NUL = '*'
    · rw [walkStep_star E ll md fl _ st hstar] at hres ⊢
      rw [starStep_err (Or.inl (Nat.succ_ne_zero i))]
      simp [dotsUpto]
    · by_cases hdot : input.getD (i + 1) NUL = '.'
      · rw [walkStep_dot E ll md fl _ st hdot] at hres ⊢
        by_cases h1 : st.label ≤ st.lhs
        · rw [emitStep_empty h1]
          simp [dotsUpto]
        · by_cases h2 : fl < st.finalcur + (encOf E input ll st).length + 1
          · rw [emitStep_toolong_cap h1 h2]
            simp [dotsUpto]
          · by_cases h3 : md ≤ emitFc E input ll st
            · rw [emitStep_toolong_budget h1 h2 h3]
              simp [dotsUpto]
            · rw [emitStep_next h1 h2 h3 (Nat.succ_ne_zero i)] at hres ⊢
              have hw := ih hres
              have hlen : (emitSt E input ll st).calls.length = st.calls.length + 1 := by
                simp [emitSt]
              simp only [dotsUpto, hdot, reduceIte]
              omega
      · rw [walkStep_cont E ll md fl _ st hstar hdot (Nat.succ_ne_zero i)] at hres ⊢
        have hw := ih hres
        have hlen : ({ st with lhs := i + 1 } : WalkSt).calls.length = st.calls.length := rfl
        simp only [dotsUpto, hdot, reduceIte]
        omega

/-! ## The accumulated string only grows at the front

Every write prepends; the string present in the buffer on entry is a
suffix of the string at any later point of the walk. -/

theorem cstr_nil_of_fc0 {fl : Nat} {st : WalkSt} (h : BufOk fl st)
    (h0 : st.finalcur = 0) : cstr st.buf = [] := by
  have := h.cstr_parts.2
  rw [h0] at this
  exact List.eq_nil_of_length_eq_zero this

theorem starStep_mono {input : List Char} {fl i : Nat} {st : WalkSt}
    (h : BufOk fl st) : cstr st.buf <:+ cstr (starStep input fl i st).2.buf := by
  by_cases h1 : i ≠ 0 ∨ st.label ≠ st.lhs + 1
  · rw [starStep_err h1]
  · by_cases h2 : fl < st.finalcur + 2
    · rw [starStep_toolong h1 h2]
    · rw [starStep_ok h1 h2]
      have := star_cstr h h2
      simp only []
      rw [this]
      exact (List.suffix_cons _ _).trans (List.suffix_cons _ _)

theorem emit_suffix {E : Enc} {input : List Char} {ll fl : Nat} {st : WalkSt}
    (h : BufOk fl st)
    (h2 : ¬fl < st.finalcur + (encOf E input ll st).length + 1) :
    cstr st.buf <:+ cstr (emitBuf E input ll st) := by
  rw [emit_cstr h h2]
  by_cases hz : st.finalcur = 0
  · rw [cstr_nil_of_fc0 h hz]
    exact List.nil_suffix
  · rw [if_neg hz]
    exact (List.suffix_cons _ _).trans (List.suffix_append _ _)

theorem emitStep_mono {E : Enc} {input : List Char} {ll md fl i : Nat}
    {next : WalkSt → HErr × WalkSt} {st : WalkSt} (h : BufOk fl st)
    (hnext : i ≠ 0 → ∀ s, BufOk fl s → cstr s.buf <:+ cstr (next s).2.buf) :
    cstr st.buf <:+ cstr (emitStep E input ll md fl i next st).2.buf := by
  by_cases h1 : st.label ≤ st.lhs
  · rw [emitStep_empty h1]
  · by_cases h2 : fl < st.finalcur + (encOf E input ll st).length + 1
    · rw [emitStep_toolong_cap h1 h2]
    · by_cases h3 : md ≤ emitFc E input ll st
      · rw [emitStep_toolong_budget h1 h2 h3]
        exact emit_suffix h h2
      · by_cases h4 : i = 0
        · subst h4
          rw [emitStep_break h1 h2 h3]
          exact emit_suffix h h2
        · rw [emitStep_next h1 h2 h3 h4]
          exact (emit_suffix h h2).trans
            (hnext h4 (emitSt E input ll st) (emit_BufOkP h h2))

theorem walkStep_mono {E : Enc} {input : List Char} {ll md fl i : Nat}
    {next : WalkSt → HErr × WalkSt} {st : WalkSt} (h : BufOk fl st)
    (hnext : i ≠ 0 → ∀ s, BufOk fl s → cstr s.buf <:+ cstr (next s).2.buf) :
    cstr st.buf <:+ cstr (walkStep E input ll md fl i next st).2.buf := by
  by_cases hstar : input.getD i NUL = '*'
  · rw [walkStep_star E ll md fl next st hstar]
    exact @starStep_mono input fl i { st with lhs := i } h
  · by_cases hdot : input.getD i NUL = '.'
    · rw [walkStep_dot E ll md fl next st hdot]
      exact emitStep_mono h hnext
    · by_cases hi : i = 0
      · subst hi
        rw [walkStep_zero_emit E ll md fl next st hstar hdot]
        exact @emitStep_mono E input ll md fl 0 next { st with lhs := 0 } h hnext
      · rw [walkStep_cont E ll md fl next st hstar hdot hi]
        exact hnext hi { st with lhs := i } h

theorem walk_mono {E : Enc} {input : List Char} {ll md fl i : Nat} {st : WalkSt}
    (h : BufOk fl st) : cstr st.buf <:+ cstr (walk E input ll md fl i st).2.buf := by
  induction i generalizing st with
  | zero => exact walkStep_mono h (fun hi => absurd rfl hi)
  | succ i ih => exact walkStep_mono h (fun _ s hs => ih hs)

/-! ## Wildcard characterization

A walk that returns NONE never passed a star at a position other than
zero, and if the input starts with a star the leftmost label was exactly
that star; conversely a NONE result with a leading star leaves a buffer
starting with the literal star-dot and ends with the wildcard callback. -/

theorem walk_none_nostar {E : Enc} {input : List Char} {ll md fl : Nat} {i : Nat}
    {st : WalkSt}
    (hinv : i + 1 ≤ st.label)
    (hlhs : i ≤ st.lhs ∧ input.getD st.lhs NUL ≠ '.')
    (hres : (walk E input ll md fl i st).1 = HErr.NONE) :
    (∀ j, 1 ≤ j → j ≤ i → input.getD j NUL ≠ '*') ∧
      (input.getD 0 NUL = '*' → 1 ≤ i → input.getD 1 NUL = '.') := by
  induction i generalizing st with
  | zero =>
    refine ⟨fun j hj1 hj0 => by omega, fun hstar h10 => by omega⟩
  | succ i ih =>
    rw [walk_succ] at hres
    by_cases hstar : input.getD (i + 1) NUL = '*'
    · rw [walkStep_star E ll md fl _ st hstar] at hres
      rw [starStep_err (Or.inl (Nat.succ_ne_zero i))] at hres
      simp at hres
    · by_cases hdot : input.getD (i + 1) NUL = '.'
      · rw [walkStep_dot E ll md fl _ st hdot] at hres
        by_cases h1 : st.label ≤ st.lhs
        · rw [emitStep_empty h1] at hres
          simp at hres
        · by_cases h2 : fl < st.finalcur + (encOf E input ll st).length + 1
          · rw [emitStep_toolong_cap h1 h2] at hres
            simp at hres
          · by_cases h3 : md ≤ emitFc E input ll st
            · rw [emitStep_toolong_budget h1 h2 h3] at hres
              simp at hres
            · rw [emitStep_next h1 h2 h3 (Nat.succ_ne_zero i)] at hres
              have hlhs2 : st.lhs ≠ i + 1 := fun he => hlhs.2 (he ▸ hdot)
              have hlab : i + 1 ≤ (emitSt E input ll st).label := by
                simp only [emitSt]
                omega
              have hlhsE : i ≤ (emitSt E input ll st).lhs ∧
                  input.getD (emitSt E input ll st).lhs NUL ≠ '.' := by
                simp only [emitSt]
                exact ⟨by omega, hlhs.2⟩
              obtain ⟨ha, hb⟩ := ih hlab hlhsE hres
              refine ⟨fun j hj1 hji => ?_, fun hst h1i => ?_⟩
              · rcases Nat.lt_or_ge j (i + 1) with hj | hj
                · exact ha j hj1 (by omega)
                · have : j = i + 1 := by omega
                  rw [this, hdot]
                  decide
              · rcases Nat.eq_zero_or_pos i with hi | hi
                · subst hi
                  exact hdot
                · exact hb hst hi
      · rw [walkStep_cont E ll md fl _ st hstar hdot (Nat.succ_ne_zero i)] at hres
        have hlab : i + 1 ≤ ({ st with lhs := i + 1 } : WalkSt).label :=
          Nat.le_of_succ_le hinv
        have hlhsE : i ≤ ({ st with lhs := i + 1 } : WalkSt).lhs ∧
            input.getD ({ st with lhs := i + 1 } : WalkSt).lhs NUL ≠ '.' :=
          ⟨Nat.le_succ i, hdot⟩
        obtain ⟨ha, hb⟩ := ih hlab hlhsE hres
        refine ⟨fun j hj1 hji => ?_, fun hst h1i => ?_⟩
        · rcases Nat.lt_or_ge j (i + 1) with hj | hj
          · exact ha j hj1 (by omega)
          · have : j = i + 1 := by omega
            rw [this]
            exact hstar
        · rcases Nat.eq_zero_or_pos i with hi | hi
          · subst hi
            rw [walk_zero] at hres
            rw [walkStep_star E ll md fl _ _ hst] at hres
            rw [starStep_err] at hres
            · simp at hres
            · right
              simp only []
              omega
          · exact hb hst hi

/-! ## Last character of the accumulated string

Every successful non-wildcard output ends with a character of an encoded
label (never a dot); the only successful output ending in a dot is the
bare wildcard star-dot. -/

theorem b32len_digestSize_pos (m : Nat) : 0 < b32len (digestSize m) := by
  unfold digestSize
  split
  · decide
  · split
    · decide
    · decide

theorem encOf_ne_nil {E : Enc} {input : List Char} {ll : Nat} {st : WalkSt} :
    encOf E input ll st ≠ [] := by
  have hlen : (encOf E input ll st).length = b32len (digestSize (st.label - st.lhs)) :=
    E.len_enc _ _
  have := b32len_digestSize_pos (st.label - st.lhs)
  intro hnil
  rw [hnil] at hlen
  simp at hlen
  omega

theorem encOf_getLast_ne_dot {E : Enc} {input : List Char} {ll : Nat} {st : WalkSt} :
    (encOf E input ll st).getLast? ≠ some '.' := by
  intro h
  exact E.dot_not_mem _ _ (List.mem_of_mem_getLast? h)

theorem getLast?_dot_cons {l : List Char} (h : l ≠ []) :
    (('.' : Char) :: l).getLast? = l.getLast? := by
  have hap := @List.getLast?_append Char ['.'] l
  simp only [List.singleton_append] at hap
  rw [hap]
  cases hl : l.getLast? with
  | none => exact absurd (List.getLast?_eq_none_iff.mp hl) h
  | some a => simp

theorem emit_cstr_last {E : Enc} {input : List Char} {ll fl : Nat} {st : WalkSt}
    (hB : BufOk fl st)
    (h2 : ¬fl < st.finalcur + (encOf E input ll st).length + 1)
    (hC : st.finalcur = 0 ∨ (cstr st.buf).getLast? ≠ some '.') :
    (cstr (emitBuf E input ll st)).getLast? ≠ some '.' := by
  rw [emit_cstr hB h2]
  by_cases hz : st.finalcur = 0
  · rw [if_pos hz, List.append_nil]
    exact encOf_getLast_ne_dot
  · rw [if_neg hz, List.getLast?_append]
    have hcs : cstr st.buf ≠ [] := by
      intro hnil
      have := hB.cstr_parts.2
      rw [hnil] at this
      simp at this
      omega
    rw [getLast?_dot_cons hcs]
    cases hl : (cstr st.buf).getLast? with
    | none => exact absurd (List.getLast?_eq_none_iff.mp hl) hcs
    | some a =>
      rcases hC with hC | hC
      · exact absurd hC hz
      · simp only [Option.or_some]
        rw [hl] at hC
        simpa using hC

theorem walk_content_last {E : Enc} {input : List Char} {ll md fl i : Nat} {st : WalkSt}
    (hB : BufOk fl st)
    (hC : st.finalcur = 0 ∨ (cstr st.buf).getLast? ≠ some '.')
    (hres : (walk E input ll md fl i st).1 = HErr.NONE) :
    (cstr (walk E input ll md fl i st).2.buf).getLast? ≠ some '.' ∨
      cstr (walk E input ll md fl i st).2.buf = ['*', '.'] := by
  induction i generalizing st with
  | zero =>
    rw [walk_zero] at hres ⊢
    by_cases hstar : input.getD 0 NUL = '*'
    · rw [walkStep_star E ll md fl _ st hstar] at hres ⊢
      set st1 : WalkSt := { st with lhs := 0 } with hst1
      by_cases h1 : (0 : Nat) ≠ 0 ∨ st1.label ≠ st1.lhs + 1
      · rw [starStep_err h1] at hres
        simp at hres
      · by_cases h2 : fl < st1.finalcur + 2
        · rw [starStep_toolong h1 h2] at hres
          simp at hres
        · rw [starStep_ok h1 h2]
          have hcs := @star_cstr fl st1 hB h2
          simp only []
          rw [hcs]
          rcases hC with hC | hC
          · right
            rw [cstr_nil_of_fc0 hB hC]
          · by_cases hnil : cstr st.buf = []
            · right
              rw [hnil]
            · left
              rw [show ('*' : Char) :: '.' :: cstr st.buf = ['*'] ++ ('.' :: cstr st.buf) by rfl,
                List.getLast?_append, getLast?_dot_cons hnil]
              cases hl : (cstr st.buf).getLast? with
              | none => exact absurd (List.getLast?_eq_none_iff.mp hl) hnil
              | some a =>
                rw [hl] at hC
                simpa using hC
    · by_cases hdot : input.getD 0 NUL = '.'
      · rw [walkStep_dot E ll md fl _ st hdot] at hres ⊢
        by_cases h1 : st.label ≤ st.lhs
        · rw [emitStep_empty h1] at hres
          simp at hres
        · by_cases h2 : fl < st.finalcur + (encOf E input ll st).length + 1
          · rw [emitStep_toolong_cap h1 h2] at hres
            simp at hres
          · by_cases h3 : md ≤ emitFc E input ll st
            · rw [emitStep_toolong_budget h1 h2 h3] at hres
              simp at hres
            · rw [emitStep_break h1 h2 h3]
              left
              exact emit_cstr_last hB h2 hC
      · rw [walkStep_zero_emit E ll md fl _ st hstar hdot] at hres ⊢
        set st1 : WalkSt := { st with lhs := 0 } with hst1
        by_cases h1 : st1.label ≤ st1.lhs
        · rw [emitStep_empty h1] at hres
          simp at hres
        · by_cases h2 : fl < st1.finalcur + (encOf E input ll st1).length + 1
          · rw [emitStep_toolong_cap h1 h2] at hres
            simp at hres
          · by_cases h3 : md ≤ emitFc E input ll st1
            · rw [emitStep_toolong_budget h1 h2 h3] at hres
              simp at hres
            · rw [emitStep_break h1 h2 h3]
              left
              exact @emit_cstr_last E input ll fl st1 hB h2 hC
  | succ i ih =>
    rw [walk_succ] at hres ⊢
    by_cases hstar : input.getD (i + 1) NUL = '*'
    · rw [walkStep_star E ll md fl _ st hstar] at hres ⊢
      rw [starStep_err (Or.inl (Nat.succ_ne_zero i))] at hres
      simp at hres
    · by_cases hdot : input.getD (i + 1) NUL = '.'
      · rw [walkStep_dot E ll md fl _ st hdot] at hres ⊢
        by_cases h1 : st.label ≤ st.lhs
        · rw [emitStep_empty h1] at hres
          simp at hres
        · by_cases h2 : fl < st.finalcur + (encOf E input ll st).length + 1
          · rw [emitStep_toolong_cap h1 h2] at hres
            simp at hres
          · by_cases h3 : md ≤ emitFc E input ll st
            · rw [emitStep_toolong_budget h1 h2 h3] at hres
              simp at hres
            · rw [emitStep_next h1 h2 h3 (Nat.succ_ne_zero i)] at hres ⊢
              refine ih ?_ ?_ hres
              · exact emit_BufOkP hB h2
              · right
                exact emit_cstr_last hB h2 hC
      · rw [walkStep_cont E ll md fl _ st hstar hdot (Nat.succ_ne_zero i)] at hres ⊢
        exact @ih { st with lhs := i + 1 } hB hC hres

/-- A NONE walk on an input whose first character is the star leaves a
buffer starting with the literal star-dot and records the wildcard
callback (whole remaining input, final buffer string) as its last
callback. -/
theorem walk_none_star_buf {E : Enc} {input : List Char} {ll md fl i : Nat} {st : WalkSt}
    (hB : BufOk fl st) (hstar0 : input.getD 0 NUL = '*')
    (hres : (walk E input ll md fl i st).1 = HErr.NONE) :
    (∃ t, cstr (walk E input ll md fl i st).2.buf = '*' :: '.' :: t) ∧
      (walk E input ll md fl i st).2.calls.getLast? =
        some (input, cstr (walk E input ll md fl i st).2.buf) := by
  induction i generalizing st with
  | zero =>
    rw [walk_zero] at hres ⊢
    rw [walkStep_star E ll md fl _ st hstar0] at hres ⊢
    set st1 : WalkSt := { st with lhs := 0 } with hst1
    by_cases h1 : (0 : Nat) ≠ 0 ∨ st1.label ≠ st1.lhs + 1
    · rw [starStep_err h1] at hres
      simp at hres
    · by_cases h2 : fl < st1.finalcur + 2
      · rw [starStep_toolong h1 h2] at hres
        simp at hres
      · rw [starStep_ok h1 h2]
        have hcs := @star_cstr fl st1 hB h2
        constructor
        · exact ⟨cstr st.buf, hcs⟩
        · simp only [List.getLast?_concat, List.drop_zero]
  | succ i ih =>
    rw [walk_succ] at hres ⊢
    by_cases hstar : input.getD (i + 1) NUL = '*'
    · rw [walkStep_star E ll md fl _ st hstar] at hres ⊢
      rw [starStep_err (Or.inl (Nat.succ_ne_zero i))] at hres
      simp at hres
    · by_cases hdot : input.getD (i + 1) NUL = '.'
      · rw [walkStep_dot E ll md fl _ st hdot] at hres ⊢
        by_cases h1 : st.label ≤ st.lhs
        · rw [emitStep_empty h1] at hres
          simp at hres
        · by_cases h2 : fl < st.finalcur + (encOf E input ll st).length + 1
          · rw [emitStep_toolong_cap h1 h2] at hres
            simp at hres
          · by_cases h3 : md ≤ emitFc E input ll st
            · rw [emitStep_toolong_budget h1 h2 h3] at hres
              simp at hres
            · rw [emitStep_next h1 h2 h3 (Nat.succ_ne_zero i)] at hres ⊢
              exact ih (emit_BufOkP hB h2) hres
      · rw [walkStep_cont E ll md fl _ st hstar hdot (Nat.succ_ne_zero i)] at hres ⊢
        exact @ih { st with lhs := i + 1 } hB hres

/-! ## Consecutive dots

A star-free input containing two consecutive dots in the walked range
never completes: the walk ends in EMPTY_SUBLABEL, unless a length check
fails first and it ends in TOO_LONG. -/

def HasDD (input : List Char) (i : Nat) : Prop :=
  ∃ j, j + 1 ≤ i ∧ input.getD j NUL = '.' ∧ input.getD (j + 1) NUL = '.'

theorem walk_dd {E : Enc} {input : List Char} {ll md fl : Nat} {i : Nat} {st : WalkSt}
    (hnostar : ∀ j, j ≤ i → input.getD j NUL ≠ '*')
    (hcase :
      (st.lhs < st.label ∧ i ≤ st.lhs ∧ input.getD st.lhs NUL ≠ '.' ∧ HasDD input i) ∨
      (st.label = st.lhs - 1 ∧ i + 2 ≤ st.lhs ∧ input.getD st.lhs NUL ≠ '.' ∧
        (HasDD input i ∨ input.getD i NUL = '.'))) :
    (walk E input ll md fl i st).1 = HErr.EMPTY_SUBLABEL ∨
      (walk E input ll md fl i st).1 = HErr.TOO_LONG := by
  induction i generalizing st with
  | zero =>
    rcases hcase with ⟨-, -, -, j, hj, -⟩ | ⟨hlab, hlhs, -, hdd⟩
    · omega
    · have hdot : input.getD 0 NUL = '.' := by
        rcases hdd with ⟨j, hj, -⟩ | hdot
        · omega
        · exact hdot
      rw [walk_zero, walkStep_dot E ll md fl _ st hdot,
        emitStep_empty (by omega : st.label ≤ st.lhs)]
      left
      rfl
  | succ i ih =>
    have hnostar' : ∀ j, j ≤ i → input.getD j NUL ≠ '*' :=
      fun j hj => hnostar j (by omega)
    have hstar : input.getD (i + 1) NUL ≠ '*' := hnostar (i + 1) (by omega)
    rw [walk_succ]
    rcases hcase with ⟨hGlab, hGlhs, hGlhsdot, hGdd⟩ | ⟨hDlab, hDlhs, hDlhsdot, hDdd⟩
    · by_cases hdot : input.getD (i + 1) NUL = '.'
      · rw [walkStep_dot E ll md fl _ st hdot]
        have h1 : ¬st.label ≤ st.lhs := by omega
        by_cases h2 : fl < st.finalcur + (encOf E input ll st).length + 1
        · rw [emitStep_toolong_cap h1 h2]
          right
          rfl
        · by_cases h3 : md ≤ emitFc E input ll st
          · rw [emitStep_toolong_budget h1 h2 h3]
            right
            rfl
          · rw [emitStep_next h1 h2 h3 (Nat.succ_ne_zero i)]
            refine ih hnostar' (Or.inr ⟨rfl, ?_, ?_, ?_⟩)
            · have : st.lhs ≠ i + 1 := fun he => hGlhsdot (he ▸ hdot)
              simp only [emitSt]
              omega
            · exact hGlhsdot
            · obtain ⟨j, hj, hj1, hj2⟩ := hGdd
              rcases Nat.lt_or_ge (j + 1) (i + 1) with hlt | hge
              · exact Or.inl ⟨j, by omega, hj1, hj2⟩
              · have : j = i := by omega
                exact Or.inr (this ▸ hj1)
      · rw [walkStep_cont E ll md fl _ st hstar hdot (Nat.succ_ne_zero i)]
        refine ih hnostar' (Or.inl ⟨?_, Nat.le_succ i, hdot, ?_⟩)
        · show i + 1 < st.label
          omega
        · obtain ⟨j, hj, hj1, hj2⟩ := hGdd
          have : j + 1 ≠ i + 1 := fun he => hdot (he ▸ hj2)
          exact ⟨j, by omega, hj1, hj2⟩
    · by_cases hdot : input.getD (i + 1) NUL = '.'
      · rw [walkStep_dot E ll md fl _ st hdot,
          emitStep_empty (by omega : st.label ≤ st.lhs)]
        left
        rfl
      · rw [walkStep_cont E ll md fl _ st hstar hdot (Nat.succ_ne_zero i)]
        refine ih hnostar' (Or.inl ⟨?_, Nat.le_succ i, hdot, ?_⟩)
        · show i + 1 < st.label
          omega
        · rcases hDdd with ⟨j, hj, hj1, hj2⟩ | hd
          · have : j + 1 ≠ i + 1 := fun he => hdot (he ▸ hj2)
            exact ⟨j, by omega, hj1, hj2⟩
          · exact absurd hd hdot

/-! ## Shifting a walk across a left extension

Walking x ++ s behaves on the indices of s exactly like walking s with
all offsets shifted by the length of x, because the hashed cumulative
suffixes agree.  When the standalone walk of s would finish (emission at
index 0), the walk of x ++ s performs the same emission at the boundary
dot (the last character of x) and then continues into x. -/

def shiftSt (L : Nat) (st : WalkSt) : WalkSt :=
  ⟨st.lhs + L, st.label + L, st.buf, st.finalcur, st.calls⟩

theorem getD_shift {x s : List Char} (i : Nat) :
    (x ++ s).getD (i + x.length) NUL = s.getD i NUL := by
  simp only [List.getD_eq_getElem?_getD]
  rw [List.getElem?_append_right (by omega)]
  have h : i + x.length - x.length = i := by omega
  rw [h]

theorem getD_left {x s : List Char} {j : Nat} (hj : j < x.length) :
    (x ++ s).getD j NUL = x.getD j NUL := by
  simp only [List.getD_eq_getElem?_getD]
  rw [List.getElem?_append, if_pos hj]

theorem suffix_shift {x s : List Char} (n : Nat) :
    ((x ++ s).take (x.length + s.length)).drop (n + x.length) =
      (s.take s.length).drop n := by
  have h1 : (x ++ s).take (x.length + s.length) = x ++ s := by
    have : (x ++ s).length = x.length + s.length := List.length_append x s
    rw [← this, List.take_length]
  rw [h1, List.take_length, Nat.add_comm n x.length, List.drop_append]

theorem encOf_shift (E : Enc) (x s : List Char) (st : WalkSt) :
    encOf E (x ++ s) (x.length + s.length) (shiftSt x.length st) =
      encOf E s s.length st := by
  unfold encOf shiftSt
  simp only []
  rw [suffix_shift, Nat.add_sub_add_right]

theorem emitBuf_shift (E : Enc) (x s : List Char) (st : WalkSt) :
    emitBuf E (x ++ s) (x.length + s.length) (shiftSt x.length st) =
      emitBuf E s s.length st := by
  unfold emitBuf
  rw [encOf_shift]
  rfl

theorem emitFc_shift (E : Enc) (x s : List Char) (st : WalkSt) :
    emitFc E (x ++ s) (x.length + s.length) (shiftSt x.length st) =
      emitFc E s s.length st := by
  unfold emitFc
  rw [encOf_shift]
  rfl

theorem drop_lhs_shift (x s : List Char) (n : Nat) :
    (x ++ s).drop (n + x.length) = s.drop n := by
  rw [Nat.add_comm n x.length, List.drop_append]

theorem emitSt_shift (E : Enc) (x s : List Char) {st : WalkSt} (h : 1 ≤ st.lhs) :
    emitSt E (x ++ s) (x.length + s.length) (shiftSt x.length st) =
      shiftSt x.length (emitSt E s s.length st) := by
  have hb := emitBuf_shift E x s st
  have hf := emitFc_shift E x s st
  unfold shiftSt at hb hf
  unfold emitSt shiftSt
  simp only []
  rw [hb, hf, drop_lhs_shift]
  have hlab : st.lhs + x.length - 1 = st.lhs - 1 + x.length := by omega
  rw [hlab]

theorem walk_pos {E : Enc} {input : List Char} {ll md fl : Nat} {n : Nat} (h : 0 < n)
    (st : WalkSt) :
    walk E input ll md fl n st =
      walkStep E input ll md fl n (walk E input ll md fl (n - 1)) st := by
  cases n with
  | zero => omega
  | succ k =>
    rw [walk_succ]
    rfl

theorem emitStep_zero_irrel {E : Enc} {input : List Char} {ll md fl : Nat}
    (n1 n2 : WalkSt → HErr × WalkSt) (st : WalkSt) :
    emitStep E input ll md fl 0 n1 st = emitStep E input ll md fl 0 n2 st := by
  unfold emitStep
  simp only [reduceIte]

theorem emitSt_shift0 (E : Enc) (x s : List Char) {st : WalkSt} (h0 : st.lhs = 0) :
    emitSt E (x ++ s) (x.length + s.length) (shiftSt x.length st) =
      ⟨x.length, x.length - 1,
        emitBuf E s s.length st, emitFc E s s.length st,
        st.calls ++ [(s.drop st.lhs, cstr (emitBuf E s s.length st))]⟩ := by
  have hb := emitBuf_shift E x s st
  have hf := emitFc_shift E x s st
  unfold shiftSt at hb hf
  unfold emitSt shiftSt
  simp only []
  rw [hb, hf, drop_lhs_shift, h0]
  simp

theorem walk_shift {E : Enc} {x s : List Char} {md fl : Nat}
    (hxne : x ≠ []) (hxd : x.getD (x.length - 1) NUL = '.')
    {i : Nat}
    (hs0s : s.getD 0 NUL ≠ '*') (hs0d : s.getD 0 NUL ≠ '.')
    (hnostar : ∀ j, 1 ≤ j → j ≤ i → s.getD j NUL ≠ '*')
    {st : WalkSt} (hlhs : i ≤ st.lhs) :
    ((walk E s s.length md fl i st).1 ≠ HErr.NONE →
      ∃ stU, walk E (x ++ s) (x.length + s.length) md fl (i + x.length)
          (shiftSt x.length st) = ((walk E s s.length md fl i st).1, stU)) ∧
    ((walk E s s.length md fl i st).1 = HErr.NONE →
      walk E (x ++ s) (x.length + s.length) md fl (i + x.length) (shiftSt x.length st) =
        (if x.length = 1 then
          (HErr.NONE,
            ⟨x.length, x.length - 1, (walk E s s.length md fl i st).2.buf,
              (walk E s s.length md fl i st).2.finalcur,
              (walk E s s.length md fl i st).2.calls⟩)
        else
          walk E (x ++ s) (x.length + s.length) md fl (x.length - 2)
            ⟨x.length, x.length - 1, (walk E s s.length md fl i st).2.buf,
              (walk E s s.length md fl i st).2.finalcur,
              (walk E s s.length md fl i st).2.calls⟩)) := by
  have hL : 1 ≤ x.length := List.length_pos.mpr hxne
  induction i generalizing st with
  | zero =>
    -- the standalone walk emits its last label at index 0; the combined walk
    -- consumes the same character and emits the same label at the boundary dot
    rw [walk_zero, walkStep_zero_emit E s.length md fl _ st hs0s hs0d]
    have hcu : (x ++ s).getD (0 + x.length) NUL = s.getD 0 NUL := getD_shift 0
    have hgoal1 : walk E (x ++ s) (x.length + s.length) md fl (0 + x.length)
        (shiftSt x.length st) =
        walk E (x ++ s) (x.length + s.length) md fl (x.length - 1)
          (shiftSt x.length { st with lhs := 0 }) := by
      rw [walk_pos (by omega) _, walkStep_cont _ _ _ _ _ _
        (fun hc => hs0s (hcu ▸ hc)) (fun hc => hs0d (hcu ▸ hc)) (by omega)]
      have h1 : ({ shiftSt x.length st with lhs := 0 + x.length } : WalkSt) =
          shiftSt x.length { st with lhs := 0 } := rfl
      have h2 : 0 + x.length - 1 = x.length - 1 := by omega
      rw [h1, h2]
    rw [hgoal1]
    set st0 : WalkSt := { st with lhs := 0 } with hst0
    have hlhs0 : st0.lhs = 0 := rfl
    have hcb : (x ++ s).getD (x.length - 1) NUL = '.' := by
      rw [getD_left (by omega)]
      exact hxd
    have hunf : walk E (x ++ s) (x.length + s.length) md fl (x.length - 1)
        (shiftSt x.length st0) =
        emitStep E (x ++ s) (x.length + s.length) md fl (x.length - 1)
          (walk E (x ++ s) (x.length + s.length) md fl (x.length - 1 - 1))
          (shiftSt x.length st0) := by
      rcases Nat.eq_zero_or_pos (x.length - 1) with h0 | hpos
      · rw [h0, walk_zero, walkStep_dot _ _ _ _ _ _ (h0 ▸ hcb)]
        exact emitStep_zero_irrel _ _ _
      · rw [walk_pos hpos, walkStep_dot _ _ _ _ _ _ hcb]
    rw [hunf]
    by_cases h1 : st0.label ≤ st0.lhs
    · have h1u : (shiftSt x.length st0).label ≤ (shiftSt x.length st0).lhs := by
        show st0.label + x.length ≤ st0.lhs + x.length
        omega
      rw [emitStep_empty h1, emitStep_empty h1u]
      exact ⟨fun _ => ⟨_, rfl⟩, fun hn => by simp at hn⟩
    · have h1u : ¬(shiftSt x.length st0).label ≤ (shiftSt x.length st0).lhs := by
        show ¬st0.label + x.length ≤ st0.lhs + x.length
        omega
      by_cases h2 : fl < st0.finalcur + (encOf E s s.length st0).length + 1
      · have h2u : fl < (shiftSt x.length st0).finalcur +
            (encOf E (x ++ s) (x.length + s.length) (shiftSt x.length st0)).length + 1 := by
          rw [encOf_shift]
          exact h2
        rw [emitStep_toolong_cap h1 h2, emitStep_toolong_cap h1u h2u]
        exact ⟨fun _ => ⟨_, rfl⟩, fun hn => by simp at hn⟩
      · have h2u : ¬fl < (shiftSt x.length st0).finalcur +
            (encOf E (x ++ s) (x.length + s.length) (shiftSt x.length st0)).length + 1 := by
          rw [encOf_shift]
          exact h2
        by_cases h3 : md ≤ emitFc E s s.length st0
        · have h3u : md ≤ emitFc E (x ++ s) (x.length + s.length) (shiftSt x.length st0) := by
            rw [emitFc_shift]
            exact h3
          rw [emitStep_toolong_budget h1 h2 h3, emitStep_toolong_budget h1u h2u h3u]
          exact ⟨fun _ => ⟨_, rfl⟩, fun hn => by simp at hn⟩
        · have h3u : ¬md ≤ emitFc E (x ++ s) (x.length + s.length) (shiftSt x.length st0) := by
            rw [emitFc_shift]
            exact h3
          rw [emitStep_break h1 h2 h3]
          refine ⟨fun hne => absurd rfl hne, fun _ => ?_⟩
          rcases Nat.eq_zero_or_pos (x.length - 1) with h0 | hpos
          · have hxl1 : x.length = 1 := by omega
            have hstep : emitStep E (x ++ s) (x.length + s.length) md fl (x.length - 1)
                (walk E (x ++ s) (x.length + s.length) md fl (x.length - 1 - 1))
                (shiftSt x.length st0) =
                (HErr.NONE, emitSt E (x ++ s) (x.length + s.length) (shiftSt x.length st0)) := by
              rw [h0]
              exact emitStep_break h1u h2u h3u
            rw [hstep, if_pos hxl1, emitSt_shift0 E x s hlhs0]
            simp [emitSt]
          · have hxl1 : x.length ≠ 1 := by omega
            have hstep : emitStep E (x ++ s) (x.length + s.length) md fl (x.length - 1)
                (walk E (x ++ s) (x.length + s.length) md fl (x.length - 1 - 1))
                (shiftSt x.length st0) =
                walk E (x ++ s) (x.length + s.length) md fl (x.length - 1 - 1)
                  (emitSt E (x ++ s) (x.length + s.length) (shiftSt x.length st0)) :=
              emitStep_next h1u h2u h3u (by omega)
            rw [hstep, if_neg hxl1, emitSt_shift0 E x s hlhs0]
            have hidx : x.length - 1 - 1 = x.length - 2 := by omega
            rw [hidx]
            simp [emitSt]
  | succ i ih =>
    have hnostar' : ∀ j, 1 ≤ j → j ≤ i → s.getD j NUL ≠ '*' :=
      fun j hj1 hj2 => hnostar j hj1 (by omega)
    have hcs : s.getD (i + 1) NUL ≠ '*' := hnostar (i + 1) (by omega) (by omega)
    have hcu : (x ++ s).getD (i + 1 + x.length) NUL = s.getD (i + 1) NUL := getD_shift (i + 1)
    have hidx : i + 1 + x.length - 1 = i + x.length := by omega
    rw [walk_succ]
    by_cases hdot : s.getD (i + 1) NUL = '.'
    · -- both walks emit the same label at this dot
      rw [walkStep_dot E s.length md fl _ st hdot]
      have hgoalu : walk E (x ++ s) (x.length + s.length) md fl (i + 1 + x.length)
          (shiftSt x.length st) =
          emitStep E (x ++ s) (x.length + s.length) md fl (i + 1 + x.length)
            (walk E (x ++ s) (x.length + s.length) md fl (i + x.length))
            (shiftSt x.length st) := by
        rw [walk_pos (by omega), walkStep_dot _ _ _ _ _ _ (hcu.trans hdot), hidx]
      rw [hgoalu]
      by_cases h1 : st.label ≤ st.lhs
      · have h1u : (shiftSt x.length st).label ≤ (shiftSt x.length st).lhs := by
          show st.label + x.length ≤ st.lhs + x.length
          omega
        rw [emitStep_empty h1, emitStep_empty h1u]
        exact ⟨fun _ => ⟨_, rfl⟩, fun hn => by simp at hn⟩
      · have h1u : ¬(shiftSt x.length st).label ≤ (shiftSt x.length st).lhs := by
          show ¬st.label + x.length ≤ st.lhs + x.length
          omega
        by_cases h2 : fl < st.finalcur + (encOf E s s.length st).length + 1
        · have h2u : fl < (shiftSt x.length st).finalcur +
              (encOf E (x ++ s) (x.length + s.length) (shiftSt x.length st)).length + 1 := by
            rw [encOf_shift]
            exact h2
          rw [emitStep_toolong_cap h1 h2, emitStep_toolong_cap h1u h2u]
          exact ⟨fun _ => ⟨_, rfl⟩, fun hn => by simp at hn⟩
        · have h2u : ¬fl < (shiftSt x.length st).finalcur +
              (encOf E (x ++ s) (x.length + s.length) (shiftSt x.length st)).length + 1 := by
            rw [encOf_shift]
            exact h2
          by_cases h3 : md ≤ emitFc E s s.length st
          · have h3u : md ≤ emitFc E (x ++ s) (x.length + s.length)
                (shiftSt x.length st) := by
              rw [emitFc_shift]
              exact h3
            rw [emitStep_toolong_budget h1 h2 h3, emitStep_toolong_budget h1u h2u h3u]
            exact ⟨fun _ => ⟨_, rfl⟩, fun hn => by simp at hn⟩
          · have h3u : ¬md ≤ emitFc E (x ++ s) (x.length + s.length)
                (shiftSt x.length st) := by
              rw [emitFc_shift]
              exact h3
            rw [emitStep_next h1 h2 h3 (Nat.succ_ne_zero i),
              emitStep_next h1u h2u h3u (by omega),
              emitSt_shift E x s (by omega)]
            exact ih hnostar' (by
              show i ≤ (emitSt E s s.length st).lhs
              simp only [emitSt]
              omega)
    · -- an ordinary character: both walks continue leftward
      rw [walkStep_cont E s.length md fl _ st hcs hdot (Nat.succ_ne_zero i)]
      have hgoalu : walk E (x ++ s) (x.length + s.length) md fl (i + 1 + x.length)
          (shiftSt x.length st) =
          walk E (x ++ s) (x.length + s.length) md fl (i + x.length)
            (shiftSt x.length { st with lhs := i + 1 }) := by
        rw [walk_pos (by omega), walkStep_cont _ _ _ _ _ _
          (fun hc => hcs (hcu ▸ hc)) (fun hc => hdot (hcu ▸ hc)) (by omega), hidx]
        rfl
      rw [hgoalu]
      exact ih hnostar' (Nat.le_succ i)

/-! ## Top-level unfolding of hrpz_hash -/

theorem maxdOf_of_le {origindomain : List Char} (h : origindomain.length ≤ 238) :
    maxdOf origindomain = 238 - origindomain.length := by
  unfold maxdOf
  have h1 : origindomain.length % 2 ^ 64 = origindomain.length :=
    Nat.mod_eq_of_lt (by omega)
  rw [h1]
  have h2 : 2 ^ 64 + 238 - origindomain.length = 2 ^ 64 + (238 - origindomain.length) := by
    omega
  rw [h2, Nat.add_mod_left]
  exact Nat.mod_eq_of_lt (by omega)

theorem BufOkP_init (fl : Nat) : BufOkP fl (List.replicate fl NUL) 0 :=
  ⟨[], rfl, Nat.zero_le fl, by simp, by simp⟩

/-- The defined (non-out-of-bounds) executions of hrpz_hash, input not
fully qualified: the result is the walk from the last character. -/
theorem hash_eq_nostrip {E : Enc} {input origindomain final0 : List Char} {finallen : Nat}
    (h5 : ¬finallen < 5)
    (ho : ¬(origindomain = [] ∨ origindomain.getD 0 NUL = '.'))
    (hne : input ≠ [])
    (hnd : input.getD (input.length - 1) NUL ≠ '.') :
    hrpz_hash E input origindomain final0 finallen =
      some ⟨(walk E input input.length (maxdOf origindomain) finallen (input.length - 1)
          ⟨input.length - 1, input.length - 1 + 1, List.replicate finallen NUL, 0, []⟩).1,
        (walk E input input.length (maxdOf origindomain) finallen (input.length - 1)
          ⟨input.length - 1, input.length - 1 + 1, List.replicate finallen NUL, 0, []⟩).2.buf,
        (walk E input input.length (maxdOf origindomain) finallen (input.length - 1)
          ⟨input.length - 1, input.length - 1 + 1, List.replicate finallen NUL, 0, []⟩).2.finalcur,
        (walk E input input.length (maxdOf origindomain) finallen (input.length - 1)
          ⟨input.length - 1, input.length - 1 + 1, List.replicate finallen NUL, 0, []⟩).2.calls⟩ := by
  unfold hrpz_hash
  simp only []
  rw [if_neg h5, if_neg ho, if_neg (by simp [hne] : ¬input.length = 0), if_neg hnd]

/-- The defined executions of hrpz_hash with a fully qualified input
(single trailing dot, at least one character before it): the dot is
stripped and the walk starts one position earlier. -/
theorem hash_eq_strip {E : Enc} {input origindomain final0 : List Char} {finallen : Nat}
    (h5 : ¬finallen < 5)
    (ho : ¬(origindomain = [] ∨ origindomain.getD 0 NUL = '.'))
    (hne : input ≠ [])
    (hd : input.getD (input.length - 1) NUL = '.')
    (h2 : 2 ≤ input.length)
    (hnd : input.getD (input.length - 1 - 1) NUL ≠ '.') :
    hrpz_hash E input origindomain final0 finallen =
      some ⟨(walk E input (input.length - 1) (maxdOf origindomain) finallen
          (input.length - 1 - 1)
          ⟨input.length - 1 - 1, input.length - 1, List.replicate finallen NUL, 0, []⟩).1,
        (walk E input (input.length - 1) (maxdOf origindomain) finallen
          (input.length - 1 - 1)
          ⟨input.length - 1 - 1, input.length - 1, List.replicate finallen NUL, 0, []⟩).2.buf,
        (walk E input (input.length - 1) (maxdOf origindomain) finallen
          (input.length - 1 - 1)
          ⟨input.length - 1 - 1, input.length - 1, List.replicate finallen NUL, 0, []⟩).2.finalcur,
        (walk E input (input.length - 1) (maxdOf origindomain) finallen
          (input.length - 1 - 1)
          ⟨input.length - 1 - 1, input.length - 1, List.replicate finallen NUL, 0, []⟩).2.calls⟩ := by
  unfold hrpz_hash
  simp only []
  rw [if_neg h5, if_neg ho, if_neg (by simp [hne] : ¬input.length = 0), if_pos hd,
    if_neg (by omega : ¬input.length - 1 = 0), if_neg hnd]

/-- hrpz_hash reads out of bounds exactly on the input ".", past the
early-exit checks. -/
theorem hash_eq_none_iff {E : Enc} {input origindomain final0 : List Char} {finallen : Nat}
    (h5 : ¬finallen < 5)
    (ho : ¬(origindomain = [] ∨ origindomain.getD 0 NUL = '.')) :
    hrpz_hash E input origindomain final0 finallen = none ↔ input = ['.'] := by
  constructor
  · intro h
    unfold hrpz_hash at h
    simp only [] at h
    rw [if_neg h5, if_neg ho] at h
    by_cases hne : input.length = 0
    · rw [if_pos hne] at h
      simp at h
    · rw [if_neg hne] at h
      by_cases hd : input.getD (input.length - 1) NUL = '.'
      · rw [if_pos hd] at h
        by_cases h1 : input.length - 1 = 0
        · have hlen1 : input.length = 1 := by omega
          cases input with
          | nil => simp at hlen1
          | cons a l =>
            simp at hlen1
            subst hlen1
            simp [List.getD] at hd
            rw [hd]
        · rw [if_neg h1] at h
          by_cases hdd : input.getD (input.length - 1 - 1) NUL = '.'
          · rw [if_pos hdd] at h
            simp at h
          · rw [if_neg hdd] at h
            simp at h
      · rw [if_neg hd] at h
        simp at h
  · intro h
    subst h
    unfold hrpz_hash
    simp only []
    rw [if_neg h5, if_neg ho]
    norm_num

/-- Length of the input after stripping one trailing dot, as hrpz_hash
does (lines 162-165). -/
def stripLen (input : List Char) : Nat :=
  if input.getD (input.length - 1) NUL = '.' then input.length - 1 else input.length

/-- Any defined hrpz_hash call past the buffer and origin checks either
fails before walking (empty input, or an empty trailing sublabel, both
with no callbacks) or returns the result of the label walk over the
stripped input. -/
theorem hash_some_walk {E : Enc} {input origindomain final0 : List Char} {finallen : Nat}
    {r : HOut}
    (h5 : ¬finallen < 5)
    (ho : ¬(origindomain = [] ∨ origindomain.getD 0 NUL = '.'))
    (hh : hrpz_hash E input origindomain final0 finallen = some r) :
    (r.err = HErr.EMPTY_LABEL ∧ input = [] ∧ r.calls = []) ∨
    (r.err = HErr.EMPTY_SUBLABEL ∧ r.calls = [] ∧
      input.getD (input.length - 1) NUL = '.' ∧
      input.getD (input.length - 1 - 1) NUL = '.' ∧ 2 ≤ input.length) ∨
    (1 ≤ stripLen input ∧ input.getD (stripLen input - 1) NUL ≠ '.' ∧
      r = ⟨(walk E input (stripLen input) (maxdOf origindomain) finallen (stripLen input - 1)
          ⟨stripLen input - 1, stripLen input, List.replicate finallen NUL, 0, []⟩).1,
        (walk E input (stripLen input) (maxdOf origindomain) finallen (stripLen input - 1)
          ⟨stripLen input - 1, stripLen input, List.replicate finallen NUL, 0, []⟩).2.buf,
        (walk E input (stripLen input) (maxdOf origindomain) finallen (stripLen input - 1)
          ⟨stripLen input - 1, stripLen input, List.replicate finallen NUL, 0, []⟩).2.finalcur,
        (walk E input (stripLen input) (maxdOf origindomain) finallen (stripLen input - 1)
          ⟨stripLen input - 1, stripLen input, List.replicate finallen NUL, 0, []⟩).2.calls⟩) := by
  by_cases hne : input = []
  · subst hne
    unfold hrpz_hash at hh
    simp only [] at hh
    rw [if_neg h5, if_neg ho] at hh
    norm_num at hh
    left
    rw [← hh]
    exact ⟨rfl, rfl, rfl⟩
  · by_cases hd : input.getD (input.length - 1) NUL = '.'
    · have hlen1 : 1 ≤ input.length := by
        cases input with
        | nil => exact absurd rfl hne
        | cons a l => simp
      by_cases h1 : input.length - 1 = 0
      · exfalso
        unfold hrpz_hash at hh
        simp only [] at hh
        rw [if_neg h5, if_neg ho, if_neg (by omega : ¬input.length = 0), if_pos hd,
          if_pos h1] at hh
        simp at hh
      · by_cases hdd : input.getD (input.length - 1 - 1) NUL = '.'
        · unfold hrpz_hash at hh
          simp only [] at hh
          rw [if_neg h5, if_neg ho, if_neg (by omega : ¬input.length = 0), if_pos hd,
            if_neg h1, if_pos hdd] at hh
          right
          left
          rw [← Option.some_inj.mp hh]
          exact ⟨rfl, rfl, hd, hdd, by omega⟩
        · rw [hash_eq_strip h5 ho hne hd (by omega) hdd] at hh
          right
          right
          have hsl : stripLen input = input.length - 1 := if_pos hd
          rw [hsl]
          refine ⟨by omega, ?_, ?_⟩
          · exact hdd
          · have := Option.some_inj.mp hh
            rw [← this]
    · rw [hash_eq_nostrip h5 ho hne hd] at hh
      right
      right
      have hsl : stripLen input = input.length := if_neg hd
      have hlen1 : 1 ≤ input.length := by
        cases input with
        | nil => exact absurd rfl hne
        | cons a l => simp
      rw [hsl]
      refine ⟨by omega, hd, ?_⟩
      have h11 : input.length - 1 + 1 = input.length := by omega
      rw [← Option.some_inj.mp hh, h11]

/-- C7: for every emitted label of character length m, the digest fed to
the base32 encoder has size exactly 4 bytes when m < 4, 8 bytes when
4 <= m < 8 and 16 bytes when m >= 8; the digest size always lies in
{4, 8, 16} and is a non-decreasing step function of m; during the walk
the encoder is invoked precisely with this size. -/
theorem claim7_digest_sizes :
    (∀ m, m < 4 → digestSize m = 4) ∧
    (∀ m, 4 ≤ m → m < 8 → digestSize m = 8) ∧
    (∀ m, 8 ≤ m → digestSize m = 16) ∧
    (∀ m, digestSize m = 4 ∨ digestSize m = 8 ∨ digestSize m = 16) ∧
    Monotone digestSize ∧
    (∀ (E : Enc) (input : List Char) (ll : Nat) (st : WalkSt),
      encOf E input ll st =
        E.enc ((input.take ll).drop st.lhs) (digestSize (st.label - st.lhs))) := by
  refine ⟨?_, ?_, ?_, ?_, ?_, fun E input ll st => rfl⟩
  · intro m hm
    unfold digestSize
    rw [if_pos hm]
  · intro m hm4 hm8
    unfold digestSize
    rw [if_neg (by omega), if_pos hm8]
  · intro m hm
    unfold digestSize
    rw [if_neg (by omega), if_neg (by omega)]
  · intro m
    unfold digestSize
    split
    · exact Or.inl rfl
    · split
      · exact Or.inr (Or.inl rfl)
      · exact Or.inr (Or.inr rfl)
  · intro a b hab
    unfold digestSize
    split_ifs <;> omega

/-- C7 witness: the three size buckets at concrete label lengths, via the
theorem. -/
theorem claim7_witness :
    digestSize 3 = 4 ∧ digestSize 5 = 8 ∧ digestSize 11 = 16 :=
  ⟨claim7_digest_sizes.1 3 (by decide),
   claim7_digest_sizes.2.1 5 (by decide) (by decide),
   claim7_digest_sizes.2.2.1 11 (by decide)⟩

/-- C9: whenever hrpz_hash returns a result other than TOO_LONG,
hrpz_hashwildcard on the same arguments returns the same error code and
the same buffer contents and sets iswildcard to false. -/
theorem claim9_wildcard_passthrough (E : Enc) (lefthandside origindomain final0 : List Char)
    (finallen : Nat) (r : HOut)
    (hh : hrpz_hash E lefthandside origindomain final0 finallen = some r)
    (hne : r.err ≠ HErr.TOO_LONG) :
    hrpz_hashwildcard E lefthandside origindomain final0 finallen = some (r, false) := by
  unfold hrpz_hashwildcard
  rw [hh]
  simp [hne]

/-- C9 witness: a successful input passes through unchanged. -/
theorem claim9_witness :
    hrpz_hashwildcard E0 ['a', 'b'] ['o'] (List.replicate 16 NUL) 16 =
      some ((hrpz_hash E0 ['a', 'b'] ['o'] (List.replicate 16 NUL) 16).get (by decide),
        false) :=
  claim9_wildcard_passthrough E0 ['a', 'b'] ['o'] (List.replicate 16 NUL) 16 _
    (Option.some_get _).symm (by decide)

/-- C3: with a valid buffer and origin, the one-character input "."
makes hrpz_hash read lefthandside[SIZE_MAX], an out-of-bounds access
(result none in this total model); every input that is nonempty and has
at least two characters whenever it ends in a dot stays in bounds. -/
theorem claim3_dot_out_of_bounds (E : Enc) (origindomain final0 : List Char) (finallen : Nat)
    (h5 : 5 ≤ finallen) (ho1 : origindomain ≠ []) (ho2 : origindomain.getD 0 NUL ≠ '.') :
    hrpz_hash E ['.'] origindomain final0 finallen = none ∧
      (∀ input : List Char,
        (input.getD (input.length - 1) NUL = '.' → 2 ≤ input.length) →
        hrpz_hash E input origindomain final0 finallen ≠ none) := by
  have ho : ¬(origindomain = [] ∨ origindomain.getD 0 NUL = '.') := by tauto
  have h5' : ¬finallen < 5 := by omega
  constructor
  · exact (hash_eq_none_iff h5' ho).mpr rfl
  · intro input hq hnone
    have hdot : input = ['.'] := (hash_eq_none_iff h5' ho).mp hnone
    subst hdot
    exact absurd (hq (by decide)) (by decide)

/-- C3 witness: the out-of-bounds input and an in-bounds fully qualified
input at concrete arguments. -/
theorem claim3_witness :
    hrpz_hash E0 ['.'] ['o'] (List.replicate 8 NUL) 8 = none ∧
      hrpz_hash E0 ['a', '.'] ['o'] (List.replicate 8 NUL) 8 ≠ none :=
  ⟨(claim3_dot_out_of_bounds E0 ['o'] (List.replicate 8 NUL) 8 (by decide) (by decide)
      (by decide)).1,
   (claim3_dot_out_of_bounds E0 ['o'] (List.replicate 8 NUL) 8 (by decide) (by decide)
      (by decide)).2 ['a', '.'] (by decide)⟩

/-- C10: with a valid origin and a buffer of at least 5 bytes, hashing
the one-character input "*" returns NONE, invokes the callback exactly
once (with the whole input and the buffer), and leaves exactly the
two-character string star-dot in the buffer; moreover a successful
output ends in a dot only if it is exactly that star-dot output. -/
theorem claim10_bare_wildcard (E : Enc) (origindomain final0 : List Char) (finallen : Nat)
    (h5 : 5 ≤ finallen) (ho1 : origindomain ≠ []) (ho2 : origindomain.getD 0 NUL ≠ '.') :
    (∃ r, hrpz_hash E ['*'] origindomain final0 finallen = some r ∧
      r.err = HErr.NONE ∧ cstr r.buf = ['*', '.'] ∧ r.calls = [(['*'], ['*', '.'])]) ∧
    (∀ (input : List Char) (r : HOut),
      hrpz_hash E input origindomain final0 finallen = some r → r.err = HErr.NONE →
      (cstr r.buf).getLast? = some '.' → cstr r.buf = ['*', '.']) := by
  have ho : ¬(origindomain = [] ∨ origindomain.getD 0 NUL = '.') := by tauto
  have h5' : ¬finallen < 5 := by omega
  constructor
  · rw [hash_eq_nostrip h5' ho (by decide) (by decide)]
    have hlen : (['*'] : List Char).length = 1 := rfl
    rw [hlen]
    have hst : walk E ['*'] 1 (maxdOf origindomain) finallen (1 - 1)
        ⟨1 - 1, 1 - 1 + 1, List.replicate finallen NUL, 0, []⟩ =
        walk E ['*'] 1 (maxdOf origindomain) finallen 0
          ⟨0, 1, List.replicate finallen NUL, 0, []⟩ := rfl
    rw [hst, walk_zero,
      walkStep_star E 1 (maxdOf origindomain) finallen _ _ (by decide),
      starStep_ok (by simp) (by show ¬finallen < 0 + 2; omega)]
    have hbuf : (List.replicate finallen NUL).take 0 ++
        (List.replicate finallen NUL).drop (2 + 0) = List.replicate (finallen - 2) NUL := by
      simp [List.drop_replicate]
    have hc : cstr ('*' :: '.' :: ((List.replicate finallen NUL).take 0 ++
        (List.replicate finallen NUL).drop (2 + 0))) = ['*', '.'] := by
      rw [hbuf]
      have := @cstr_content ['*', '.'] (finallen - 2) (by decide)
      simpa using this
    refine ⟨_, rfl, rfl, hc, ?_⟩
    simp only [List.drop_zero, List.nil_append]
    rw [hc]
  · intro input r hh herr hlast
    rcases hash_some_walk h5' ho hh with ⟨he, -, -⟩ | ⟨he, -⟩ | ⟨h1, hnd, hr⟩
    · rw [herr] at he
      cases he
    · rw [herr] at he
      cases he
    · have hB : BufOk finallen
          (⟨stripLen input - 1, stripLen input, List.replicate finallen NUL, 0, []⟩ : WalkSt) :=
        BufOkP_init finallen
      have := @walk_content_last E input (stripLen input)
        (maxdOf origindomain) finallen (stripLen input - 1)
        ⟨stripLen input - 1, stripLen input, List.replicate finallen NUL, 0, []⟩
        hB (Or.inl rfl) (by rw [hr] at herr; exact herr)
      rcases this with hne | heq
      · exfalso
        rw [hr] at hlast
        exact hne hlast
      · rw [hr]
        exact heq

/-- C10 witness: concrete arguments for the bare wildcard theorem. -/
theorem claim10_witness :
    (∃ r, hrpz_hash E0 ['*'] ['o'] (List.replicate 8 NUL) 8 = some r ∧
      r.err = HErr.NONE ∧ cstr r.buf = ['*', '.'] ∧ r.calls = [(['*'], ['*', '.'])]) :=
  (claim10_bare_wildcard E0 ['o'] (List.replicate 8 NUL) 8 (by decide) (by decide)
    (by decide)).1

theorem hash_early_checks {E : Enc} {input origindomain final0 : List Char} {finallen : Nat}
    {r : HOut}
    (hh : hrpz_hash E input origindomain final0 finallen = some r)
    (h1 : r.err ≠ HErr.INVALID_INPUTS) (h2 : r.err ≠ HErr.INVALID_ORIGIN_DOMAIN) :
    ¬finallen < 5 ∧ ¬(origindomain = [] ∨ origindomain.getD 0 NUL = '.') := by
  by_cases hf : finallen < 5
  · exfalso
    unfold hrpz_hash at hh
    simp only [] at hh
    rw [if_pos hf] at hh
    rw [← Option.some_inj.mp hh] at h1
    exact h1 rfl
  · refine ⟨hf, fun hor => ?_⟩
    unfold hrpz_hash at hh
    simp only [] at hh
    rw [if_neg hf, if_pos hor] at hh
    rw [← Option.some_inj.mp hh] at h2
    exact h2 rfl

theorem BufOkP.terminator {fl : Nat} {buf : List Char} {fc : Nat}
    (h : BufOkP fl buf fc) (hlt : fc < fl) : buf.getD fc 'x' = NUL := by
  obtain ⟨content, hlen, hle, -, hbuf⟩ := h
  rw [hbuf]
  simp only [List.getD_eq_getElem?_getD]
  rw [List.getElem?_append_right (by omega)]
  have h0 : fc - content.length = 0 := by omega
  rw [h0]
  have hrep : (List.replicate (fl - fc) NUL)[0]? = some NUL := by
    cases hfl : fl - fc with
    | zero => omega
    | succ k => simp [List.replicate_succ]
  rw [hrep]
  rfl

/-- C1 counterexample: the claim fails as stated.  First, with
finallen 15 and input a.b, hrpz_hash succeeds with a 15-character string
that fills the whole buffer: len(out) = finallen, not <= finallen - 1,
and no NUL terminator lies inside the buffer.  Second, on the salvage
path, with an origin of 230 characters (maxdomainlen = 8) and the input
aaaaaaaa, hrpz_hashwildcard succeeds with a 28-character output while
255 - 1 - 230 = 24, so len(out) <= 255 - 1 - len(origin) also fails. -/
theorem claim1_counterexample :
    ((hrpz_hash E0 ['a', '.', 'b'] ['o'] (List.replicate 15 NUL) 15).map
        (fun r => (r.err, (cstr r.buf).length)) = some (HErr.NONE, 15) ∧
      ¬(15 : Nat) ≤ 15 - 1) ∧
    ((hrpz_hashwildcard E0 (List.replicate 8 'a') (List.replicate 230 'o')
          (List.replicate 40 NUL) 40).map
        (fun p => (p.1.err, (cstr p.1.buf).length, p.2)) = some (HErr.NONE, 28, true) ∧
      ¬(28 : Nat) ≤ 255 - 1 - 230) := by
  exact ⟨⟨by decide, by decide⟩, ⟨by decide, by decide⟩⟩

/-- C1 amended: for every non-error hrpz_hash result with an origin of
at most 238 characters (no size_t wrap in the budget), the buffer holds
the NUL-free string of length finalcur, finalcur <= 254 - len(origin)
and finalcur <= finallen, and the string is NUL-terminated inside the
buffer whenever finalcur < finallen (the buffer can be exactly full, in
which case no terminator fits).  For hrpz_hashwildcard the same bounds
hold when no wildcarding happened, and the salvaged wildcard output is
only guaranteed to fit the buffer (len(out) <= finallen); it can exceed
254 - len(origin). -/
theorem claim1_amended :
    (∀ (E : Enc) (input origindomain final0 : List Char) (finallen : Nat) (r : HOut),
      origindomain.length ≤ 238 →
      hrpz_hash E input origindomain final0 finallen = some r → r.err = HErr.NONE →
      cstr r.buf = r.buf.take r.finalcur ∧ (cstr r.buf).length = r.finalcur ∧
      r.finalcur ≤ 254 - origindomain.length ∧ r.finalcur ≤ finallen ∧
      (r.finalcur < finallen → r.buf.getD r.finalcur 'x' = NUL)) ∧
    (∀ (E : Enc) (input origindomain final0 : List Char) (finallen : Nat) (r : HOut)
      (w : Bool),
      hrpz_hashwildcard E input origindomain final0 finallen = some (r, w) →
      r.err = HErr.NONE →
      ((w = false → origindomain.length ≤ 238 →
        r.finalcur ≤ 254 - origindomain.length ∧ (cstr r.buf).length ≤ finallen) ∧
       (cstr r.buf).length ≤ finallen)) := by
  have main : ∀ (E : Enc) (input origindomain final0 : List Char) (finallen : Nat) (r : HOut),
      origindomain.length ≤ 238 →
      hrpz_hash E input origindomain final0 finallen = some r → r.err = HErr.NONE →
      cstr r.buf = r.buf.take r.finalcur ∧ (cstr r.buf).length = r.finalcur ∧
      r.finalcur ≤ 254 - origindomain.length ∧ r.finalcur ≤ finallen ∧
      (r.finalcur < finallen → r.buf.getD r.finalcur 'x' = NUL) := by
    intro E input origindomain final0 finallen r hlen hh herr
    obtain ⟨h5, ho⟩ := hash_early_checks hh (by rw [herr]; decide) (by rw [herr]; decide)
    rcases hash_some_walk h5 ho hh with ⟨he, -, -⟩ | ⟨he, -⟩ | ⟨h1, hnd, hr⟩
    · rw [herr] at he
      cases he
    · rw [herr] at he
      cases he
    · have hB : BufOkP finallen r.buf r.finalcur := by
        rw [hr]
        exact walk_BufOk (BufOkP_init finallen)
      have hFc := @walk_fcBound E input (stripLen input)
        (maxdOf origindomain) finallen (stripLen input - 1)
        ⟨stripLen input - 1, stripLen input, List.replicate finallen NUL, 0, []⟩
        (Or.inl rfl) (by rw [hr] at herr; exact herr)
      have hmd : maxdOf origindomain = 238 - origindomain.length := maxdOf_of_le hlen
      have hfc : r.finalcur ≤ 254 - origindomain.length := by
        rw [hr]
        show (walk E input (stripLen input) (maxdOf origindomain) finallen
          (stripLen input - 1) ⟨stripLen input - 1, stripLen input,
            List.replicate finallen NUL, 0, []⟩).2.finalcur ≤ 254 - origindomain.length
        rcases hFc with hb | hb <;> omega
      obtain ⟨content, hclen, hcle, hcnul, hcbuf⟩ := hB
      refine ⟨?_, ?_, hfc, hcle, fun hlt => ?_⟩
      · rw [hcbuf, cstr_content hcnul, List.take_left' hclen]
      · rw [hcbuf, cstr_content hcnul, hclen]
      · exact BufOkP.terminator ⟨content, hclen, hcle, hcnul, hcbuf⟩ hlt
  refine ⟨main, ?_⟩
  intro E input origindomain final0 finallen r w hw herr
  cases hh : hrpz_hash E input origindomain final0 finallen with
  | none =>
    exfalso
    unfold hrpz_hashwildcard at hw
    rw [hh] at hw
    cases hw
  | some rh =>
    by_cases htl : rh.err = HErr.TOO_LONG
    · have heq : hrpz_hashwildcard E input origindomain final0 finallen =
          some (⟨HErr.NONE, '*' :: '.' :: rh.buf.take (finallen - 2), rh.finalcur,
            rh.calls⟩, true) := by
        unfold hrpz_hashwildcard
        rw [hh]
        simp [htl]
      rw [heq] at hw
      have hpair := Option.some_inj.mp hw
      have hr : r = ⟨HErr.NONE, '*' :: '.' :: rh.buf.take (finallen - 2), rh.finalcur,
          rh.calls⟩ := (congrArg Prod.fst hpair).symm
      have hwt : w = true := (congrArg Prod.snd hpair).symm
      obtain ⟨h5, ho⟩ := hash_early_checks hh (by rw [htl]; decide) (by rw [htl]; decide)
      have hbl : rh.buf.length = finallen := by
        rcases hash_some_walk h5 ho hh with ⟨he, -, -⟩ | ⟨he, -⟩ | ⟨h1, hnd, hrh⟩
        · rw [htl] at he; cases he
        · rw [htl] at he; cases he
        · have hB : BufOkP finallen rh.buf rh.finalcur := by
            rw [hrh]
            exact walk_BufOk (BufOkP_init finallen)
          obtain ⟨content, hclen, hcle, -, hcbuf⟩ := hB
          rw [hcbuf]
          simp
          omega
      constructor
      · intro hwf
        rw [hwf] at hwt
        cases hwt
      · rw [hr]
        show (cstr ('*' :: '.' :: rh.buf.take (finallen - 2))).length ≤ finallen
        have hlen : ('*' :: '.' :: rh.buf.take (finallen - 2)).length = finallen := by
          simp [hbl]
          omega
        calc (cstr ('*' :: '.' :: rh.buf.take (finallen - 2))).length
            ≤ ('*' :: '.' :: rh.buf.take (finallen - 2)).length := by
              unfold cstr
              exact List.Sublist.length_le (List.takeWhile_sublist _)
          _ = finallen := hlen
    · have heq : hrpz_hashwildcard E input origindomain final0 finallen =
          some (rh, false) := by
        unfold hrpz_hashwildcard
        rw [hh]
        simp [htl]
      rw [heq] at hw
      have hpair := Option.some_inj.mp hw
      have hr : r = rh := (congrArg Prod.fst hpair).symm
      have hwf : w = false := (congrArg Prod.snd hpair).symm
      subst hr
      constructor
      · intro _ hlen
        obtain ⟨hc1, hc2, hc3, hc4, -⟩ :=
          main E input origindomain final0 finallen r hlen hh herr
        exact ⟨hc3, by omega⟩
      · obtain ⟨h5, ho⟩ := hash_early_checks hh (by rw [herr]; decide) (by rw [herr]; decide)
        rcases hash_some_walk h5 ho hh with ⟨he, -, -⟩ | ⟨he, -⟩ | ⟨h1, hnd, hrh⟩
        · rw [herr] at he; cases he
        · rw [herr] at he; cases he
        · have hB : BufOkP finallen r.buf r.finalcur := by
            rw [hrh]
            exact walk_BufOk (BufOkP_init finallen)
          obtain ⟨content, hclen, hcle, hcnul, hcbuf⟩ := hB
          rw [hcbuf, cstr_content hcnul, hclen]
          exact hcle

/-- C1 witness: the amended bounds at a concrete successful call. -/
theorem claim1_witness :
    cstr ((hrpz_hash E0 ['c', 'o', 'm'] ['o'] (List.replicate 16 NUL) 16).get
        (by decide)).buf =
      ((hrpz_hash E0 ['c', 'o', 'm'] ['o'] (List.replicate 16 NUL) 16).get
        (by decide)).buf.take
        ((hrpz_hash E0 ['c', 'o', 'm'] ['o'] (List.replicate 16 NUL) 16).get
          (by decide)).finalcur ∧
    (cstr ((hrpz_hash E0 ['c', 'o', 'm'] ['o'] (List.replicate 16 NUL) 16).get
        (by decide)).buf).length =
      ((hrpz_hash E0 ['c', 'o', 'm'] ['o'] (List.replicate 16 NUL) 16).get
        (by decide)).finalcur ∧
    ((hrpz_hash E0 ['c', 'o', 'm'] ['o'] (List.replicate 16 NUL) 16).get
        (by decide)).finalcur ≤ 254 - (['o'] : List Char).length ∧
    ((hrpz_hash E0 ['c', 'o', 'm'] ['o'] (List.replicate 16 NUL) 16).get
        (by decide)).finalcur ≤ 16 ∧
    (((hrpz_hash E0 ['c', 'o', 'm'] ['o'] (List.replicate 16 NUL) 16).get
        (by decide)).finalcur < 16 →
      ((hrpz_hash E0 ['c', 'o', 'm'] ['o'] (List.replicate 16 NUL) 16).get
          (by decide)).buf.getD
        ((hrpz_hash E0 ['c', 'o', 'm'] ['o'] (List.replicate 16 NUL) 16).get
          (by decide)).finalcur 'x' = NUL) :=
  claim1_amended.1 E0 ['c', 'o', 'm'] ['o'] (List.replicate 16 NUL) 16 _ (by decide)
    (Option.some_get _).symm (by decide)

/-- C4 counterexample: with finallen 8 and input a.b, hrpz_hash returns
TOO_LONG leaving the 7-character first label in the buffer; the shift of
finallen - 2 bytes then truncates the last character, so the salvaged
buffer holds the 8-character string star-dot plus only six characters,
not star-dot plus the previous 7-character string, and its length is not
prev_len + 2 = 9.  There is no NUL terminator inside the buffer at all. -/
theorem claim4_counterexample :
    (hrpz_hash E0 ['a', '.', 'b'] ['o'] (List.replicate 8 NUL) 8).map
        (fun r => (r.err, r.finalcur, cstr r.buf)) =
      some (HErr.TOO_LONG, 7, ['a', 'a', 'a', 'a', 'a', 'a', 'a']) ∧
    (hrpz_hashwildcard E0 ['a', '.', 'b'] ['o'] (List.replicate 8 NUL) 8).map
        (fun p => (p.1.err, cstr p.1.buf, p.2)) =
      some (HErr.NONE, ['*', '.', 'a', 'a', 'a', 'a', 'a', 'a'], true) ∧
    ¬(['*', '.', 'a', 'a', 'a', 'a', 'a', 'a'] =
        '*' :: '.' :: ['a', 'a', 'a', 'a', 'a', 'a', 'a']) ∧
    ¬((['*', '.', 'a', 'a', 'a', 'a', 'a', 'a'] : List Char).length = 7 + 2) := by
  exact ⟨by decide, by decide, by decide, by decide⟩

/-- C4 amended: when hrpz_hash returns TOO_LONG leaving a string of
length prev_len = finalcur, and prev_len + 2 < finallen, then
hrpz_hashwildcard sets is_wildcard, returns NONE, and leaves exactly
star-dot followed by the previous string: a NUL-terminated string of
length prev_len + 2 whose terminating byte at index prev_len + 2 is 0.
(When prev_len + 2 >= finallen - a TOO_LONG from the buffer-capacity
check with a nearly full buffer - the unconditional shift of finallen-2
bytes truncates the previous string instead.) -/
theorem claim4_amended (E : Enc) (input origindomain final0 : List Char) (finallen : Nat)
    (r : HOut)
    (hh : hrpz_hash E input origindomain final0 finallen = some r)
    (htl : r.err = HErr.TOO_LONG)
    (hfit : r.finalcur + 2 < finallen) :
    hrpz_hashwildcard E input origindomain final0 finallen =
      some (⟨HErr.NONE, '*' :: '.' :: r.buf.take (finallen - 2), r.finalcur, r.calls⟩,
        true) ∧
    (cstr r.buf).length = r.finalcur ∧
    cstr ('*' :: '.' :: r.buf.take (finallen - 2)) = '*' :: '.' :: cstr r.buf ∧
    (cstr ('*' :: '.' :: r.buf.take (finallen - 2))).length = r.finalcur + 2 ∧
    ('*' :: '.' :: r.buf.take (finallen - 2)).getD (r.finalcur + 2) 'x' = NUL := by
  obtain ⟨h5, ho⟩ := hash_early_checks hh (by rw [htl]; decide) (by rw [htl]; decide)
  have heq : hrpz_hashwildcard E input origindomain final0 finallen =
      some (⟨HErr.NONE, '*' :: '.' :: r.buf.take (finallen - 2), r.finalcur, r.calls⟩,
        true) := by
    unfold hrpz_hashwildcard
    rw [hh]
    simp [htl]
  have hB : BufOkP finallen r.buf r.finalcur := by
    rcases hash_some_walk h5 ho hh with ⟨he, -, -⟩ | ⟨he, -⟩ | ⟨h1, hnd, hrh⟩
    · rw [htl] at he; cases he
    · rw [htl] at he; cases he
    · rw [hrh]
      exact walk_BufOk (BufOkP_init finallen)
  obtain ⟨content, hclen, hcle, hcnul, hcbuf⟩ := hB
  have htake : r.buf.take (finallen - 2) =
      content ++ List.replicate (finallen - 2 - r.finalcur) NUL := by
    rw [hcbuf, List.take_append_eq_append_take,
      List.take_all_of_le (by omega), List.take_replicate, hclen]
    congr 1
    have : finallen - 2 - r.finalcur ≤ finallen - r.finalcur := by omega
    rw [Nat.min_eq_left this]
  have hstar : ('*' : Char) :: '.' :: (content ++
      List.replicate (finallen - 2 - r.finalcur) NUL) =
      ('*' :: '.' :: content) ++ List.replicate (finallen - 2 - r.finalcur) NUL := by
    simp
  have hmem : ∀ c ∈ ('*' :: '.' :: content), c ≠ NUL := by
    intro c hc
    simp only [List.mem_cons] at hc
    rcases hc with h | h | h
    · simp [h, NUL, Char.ext_iff]
    · simp [h, NUL, Char.ext_iff]
    · exact hcnul c h
  have hcs : cstr ('*' :: '.' :: r.buf.take (finallen - 2)) = '*' :: '.' :: content := by
    rw [htake, hstar, cstr_content hmem]
  have hcsr : cstr r.buf = content := by
    rw [hcbuf, cstr_content hcnul]
  refine ⟨heq, by rw [hcsr, hclen], by rw [hcs, hcsr], by rw [hcs]; simp [hclen], ?_⟩
  rw [htake, List.getD_cons_succ, List.getD_cons_succ]
  obtain ⟨k, hk⟩ : ∃ k, finallen - 2 - r.finalcur = k + 1 := ⟨finallen - 3 - r.finalcur, by omega⟩
  rw [hk]
  simp only [List.getD_eq_getElem?_getD]
  rw [List.getElem?_append_right (by omega), hclen]
  have h0 : r.finalcur - r.finalcur = 0 := by omega
  rw [h0]
  simp [List.replicate_succ]

/-- C4 witness: concrete TOO_LONG with room for the shift. -/
theorem claim4_witness :
    hrpz_hashwildcard E0 ['a', '.', 'b'] ['o'] (List.replicate 12 NUL) 12 =
      some (⟨HErr.NONE,
        '*' :: '.' :: ((hrpz_hash E0 ['a', '.', 'b'] ['o'] (List.replicate 12 NUL) 12).get
            (by decide)).buf.take (12 - 2),
        ((hrpz_hash E0 ['a', '.', 'b'] ['o'] (List.replicate 12 NUL) 12).get
            (by decide)).finalcur,
        ((hrpz_hash E0 ['a', '.', 'b'] ['o'] (List.replicate 12 NUL) 12).get
            (by decide)).calls⟩, true) ∧
    (cstr ((hrpz_hash E0 ['a', '.', 'b'] ['o'] (List.replicate 12 NUL) 12).get
        (by decide)).buf).length =
      ((hrpz_hash E0 ['a', '.', 'b'] ['o'] (List.replicate 12 NUL) 12).get
        (by decide)).finalcur ∧
    cstr ('*' :: '.' :: ((hrpz_hash E0 ['a', '.', 'b'] ['o'] (List.replicate 12 NUL) 12).get
        (by decide)).buf.take (12 - 2)) =
      '*' :: '.' :: cstr ((hrpz_hash E0 ['a', '.', 'b'] ['o']
        (List.replicate 12 NUL) 12).get (by decide)).buf ∧
    (cstr ('*' :: '.' :: ((hrpz_hash E0 ['a', '.', 'b'] ['o']
        (List.replicate 12 NUL) 12).get (by decide)).buf.take (12 - 2))).length =
      ((hrpz_hash E0 ['a', '.', 'b'] ['o'] (List.replicate 12 NUL) 12).get
        (by decide)).finalcur + 2 ∧
    ('*' :: '.' :: ((hrpz_hash E0 ['a', '.', 'b'] ['o'] (List.replicate 12 NUL) 12).get
        (by decide)).buf.take (12 - 2)).getD
      (((hrpz_hash E0 ['a', '.', 'b'] ['o'] (List.replicate 12 NUL) 12).get
          (by decide)).finalcur + 2) 'x' = NUL :=
  claim4_amended E0 ['a', '.', 'b'] ['o'] (List.replicate 12 NUL) 12 _
    (Option.some_get _).symm (by decide) (by decide)

theorem getD_ne_of_not_mem {input : List Char} {c : Char} (h : c ∉ input) (hc : c ≠ NUL)
    (j : Nat) : input.getD j NUL ≠ c := by
  by_cases hj : j < input.length
  · intro he
    apply h
    rw [← he, List.getD_eq_getElem?_getD, List.getElem?_eq_getElem hj]
    exact List.getElem_mem hj
  · rw [List.getD_eq_getElem?_getD, List.getElem?_eq_none (by omega : input.length ≤ j)]
    simp only [Option.getD_none]
    exact fun he => hc he.symm

/-- C2 counterexample: the input ".foo" begins with a dot, yet hrpz_hash
returns NONE (hashing just "foo"; the leading empty label is silently
skipped), not EMPTY_SUBLABEL. -/
theorem claim2_counterexample :
    (hrpz_hash E0 ['.', 'f', 'o', 'o'] ['o'] (List.replicate 16 NUL) 16).map HOut.err =
        some HErr.NONE ∧
      HErr.NONE ≠ HErr.EMPTY_SUBLABEL := by
  exact ⟨by decide, by decide⟩

/-- C2 amended: every star-free input containing two consecutive dots
fails with EMPTY_SUBLABEL, or with TOO_LONG when a length check fires
before the walk reaches the empty sublabel; it never returns NONE.  An
input whose first character is a dot not followed by another dot does
not fail: the leading empty label is ignored (see the counterexample). -/
theorem claim2_amended (E : Enc) (input origindomain final0 : List Char) (finallen : Nat)
    (h5 : 5 ≤ finallen) (ho1 : origindomain ≠ []) (ho2 : origindomain.getD 0 NUL ≠ '.')
    (hnostar : '*' ∉ input)
    (hdd : ∃ j, j + 1 < input.length ∧ input.getD j NUL = '.' ∧
      input.getD (j + 1) NUL = '.') :
    ∃ r, hrpz_hash E input origindomain final0 finallen = some r ∧
      (r.err = HErr.EMPTY_SUBLABEL ∨ r.err = HErr.TOO_LONG) := by
  have ho : ¬(origindomain = [] ∨ origindomain.getD 0 NUL = '.') := by tauto
  have h5' : ¬finallen < 5 := by omega
  obtain ⟨j, hjlt, hj1, hj2⟩ := hdd
  have hlen2 : 2 ≤ input.length := by omega
  have hne : input ≠ [] := by
    intro h
    rw [h] at hlen2
    simp at hlen2
  have hstarD : ∀ k, input.getD k NUL ≠ '*' :=
    fun k => getD_ne_of_not_mem (c := '*') hnostar (show ('*' : Char) ≠ NUL by decide) k
  by_cases hd : input.getD (input.length - 1) NUL = '.'
  · by_cases hdd1 : input.getD (input.length - 1 - 1) NUL = '.'
    · -- the pre-walk check catches the trailing empty sublabel
      refine ⟨⟨HErr.EMPTY_SUBLABEL, List.replicate finallen NUL, 0, []⟩, ?_, Or.inl rfl⟩
      unfold hrpz_hash
      simp only []
      rw [if_neg h5', if_neg ho, if_neg (by omega : ¬input.length = 0), if_pos hd,
        if_neg (by omega : ¬input.length - 1 = 0), if_pos hdd1]
    · rw [hash_eq_strip h5' ho hne hd hlen2 hdd1]
      refine ⟨_, rfl, ?_⟩
      have hddW : HasDD input (input.length - 1 - 1) := by
        refine ⟨j, ?_, hj1, hj2⟩
        rcases Nat.lt_or_ge (j + 1) (input.length - 1) with hlt | hge
        · omega
        · exfalso
          have : j = input.length - 1 - 1 := by omega
          exact hdd1 (this ▸ hj1)
      exact walk_dd (fun k _ => hstarD k)
        (Or.inl ⟨by show input.length - 1 - 1 < input.length - 1; omega,
          Nat.le_refl _, hdd1, hddW⟩)
  · rw [hash_eq_nostrip h5' ho hne hd]
    refine ⟨_, rfl, ?_⟩
    have hddW : HasDD input (input.length - 1) := ⟨j, by omega, hj1, hj2⟩
    exact walk_dd (fun k _ => hstarD k)
      (Or.inl ⟨by show input.length - 1 < input.length - 1 + 1; omega,
        Nat.le_refl _, hd, hddW⟩)

/-- C2 witness: a concrete star-free double-dot input fails with
EMPTY_SUBLABEL. -/
theorem claim2_witness :
    ∃ r, hrpz_hash E0 ['a', '.', '.', 'b'] ['o'] (List.replicate 16 NUL) 16 = some r ∧
      (r.err = HErr.EMPTY_SUBLABEL ∨ r.err = HErr.TOO_LONG) :=
  claim2_amended E0 ['a', '.', '.', 'b'] ['o'] (List.replicate 16 NUL) 16 (by decide)
    (by decide) (by decide) (by decide) ⟨1, by decide, by decide, by decide⟩

/-- Modelled from the spec: number_of_labels_in_input, the number of
dot-separated labels of the input after stripping one fully qualifying
trailing dot, counting * as its own label. -/
def specNumLabels (input : List Char) : Nat :=
  (input.take (stripLen input)).count '.' + 1

/-- Dots among the first n characters split into the dot at position 0
(if any) and the dots at positions 1 .. n-1. -/
theorem count_take_dots (input : List Char) :
    ∀ n, 1 ≤ n →
      (input.take n).count '.' =
        (if input.getD 0 NUL = '.' then 1 else 0) + dotsUpto input (n - 1) := by
  intro n
  induction n with
  | zero => omega
  | succ n ih =>
    intro _
    rcases Nat.eq_zero_or_pos n with hn | hn
    · subst hn
      cases input with
      | nil =>
        have h0 : ([] : List Char).getD 0 NUL = NUL := rfl
        rw [h0, if_neg (by decide : ¬(NUL = '.'))]
        simp [dotsUpto]
      | cons a l =>
        simp only [List.take_succ, List.take_zero, List.nil_append, dotsUpto]
        by_cases ha : a = '.'
        · subst ha
          simp [List.getD]
        · rw [if_neg (by simpa [List.getD] using ha)]
          simp [List.count_cons, ha]
    · rw [List.take_succ, List.count_append, ih hn]
      have hstep : dotsUpto input (n + 1 - 1) =
          dotsUpto input (n - 1) + (if input.getD n NUL = '.' then 1 else 0) := by
        obtain ⟨m, hm⟩ : ∃ m, n = m + 1 := ⟨n - 1, by omega⟩
        subst hm
        simp [dotsUpto]
      rw [hstep]
      have hcell : (input[n]?.toList).count '.' = (if input.getD n NUL = '.' then 1 else 0) := by
        cases hg : input[n]? with
        | none =>
          have h0 : input.getD n NUL = NUL := by
            simp [List.getD_eq_getElem?_getD, hg]
          rw [h0, if_neg (by decide : ¬(NUL = '.'))]
          simp
        | some a =>
          simp only [Option.toList_some, List.getD_eq_getElem?_getD, hg, Option.getD_some]
          by_cases ha : a = '.'
          · subst ha
            simp
          · simp [List.count_cons, ha, Ne.symm ha]
      rw [hcell]
      omega

/-- C5 counterexample: hashing ".foo" succeeds with one callback, but
the input has two labels (the empty leading label and foo), so the
callback count differs from number_of_labels_in_input. -/
theorem claim5_counterexample :
    (hrpz_hash E0 ['.', 'f', 'o', 'o'] ['o'] (List.replicate 16 NUL) 16).map
        (fun r => (r.err, r.calls.length)) = some (HErr.NONE, 1) ∧
      specNumLabels ['.', 'f', 'o', 'o'] = 2 ∧ (1 : Nat) ≠ 2 := by
  exact ⟨by decide, by decide, by decide⟩

/-- C5 amended: for successful calls the callback runs exactly
number_of_labels_in_input times, except that a leading empty label
(input starting with a dot) is silently skipped and not counted; on any
error the callback count stays strictly below that number: neither the
failing label nor anything left of it gets a callback. -/
theorem claim5_amended (E : Enc) (input origindomain final0 : List Char) (finallen : Nat)
    (r : HOut)
    (hh : hrpz_hash E input origindomain final0 finallen = some r) :
    (r.err = HErr.NONE →
      r.calls.length =
        specNumLabels input - (if input.getD 0 NUL = '.' then 1 else 0)) ∧
    (r.err ≠ HErr.NONE →
      r.calls.length ≤
        specNumLabels input - (if input.getD 0 NUL = '.' then 1 else 0) - 1) := by
  constructor
  · intro he
    obtain ⟨h5, ho⟩ := hash_early_checks hh (by rw [he]; decide) (by rw [he]; decide)
    rcases hash_some_walk h5 ho hh with ⟨hx, -⟩ | ⟨hx, -⟩ | ⟨h1, hnd, hr⟩
    · rw [he] at hx
      cases hx
    · rw [he] at hx
      cases hx
    · have hcnt := count_take_dots input (stripLen input) h1
      have hw := @walk_calls_none E input (stripLen input)
        (maxdOf origindomain) finallen (stripLen input - 1)
        ⟨stripLen input - 1, stripLen input, List.replicate finallen NUL, 0, []⟩
        (by rw [hr] at he; exact he)
      have hcl : r.calls.length = dotsUpto input (stripLen input - 1) + 1 := by
        rw [hr]
        show (walk E input (stripLen input) (maxdOf origindomain) finallen
          (stripLen input - 1) ⟨stripLen input - 1, stripLen input,
            List.replicate finallen NUL, 0, []⟩).2.calls.length =
          dotsUpto input (stripLen input - 1) + 1
        rw [hw]
        simp
      rw [hcl]
      unfold specNumLabels
      omega
  · intro he
    by_cases hf : finallen < 5
    · have hcalls : r.calls = [] := by
        unfold hrpz_hash at hh
        simp only [] at hh
        rw [if_pos hf] at hh
        rw [← Option.some_inj.mp hh]
      rw [hcalls]
      simp
    · by_cases hor : origindomain = [] ∨ origindomain.getD 0 NUL = '.'
      · have hcalls : r.calls = [] := by
          unfold hrpz_hash at hh
          simp only [] at hh
          rw [if_neg hf, if_pos hor] at hh
          rw [← Option.some_inj.mp hh]
        rw [hcalls]
        simp
      · rcases hash_some_walk hf hor hh with ⟨hx, -, hcalls⟩ |
          ⟨hx, hcalls, -⟩ | ⟨h1, hnd, hr⟩
        · rw [hcalls]
          simp
        · rw [hcalls]
          simp
        · have hcnt := count_take_dots input (stripLen input) h1
          have hw := @walk_calls_err E input (stripLen input)
            (maxdOf origindomain) finallen (stripLen input - 1)
            ⟨stripLen input - 1, stripLen input, List.replicate finallen NUL, 0, []⟩
            (by rw [hr] at he; exact he)
          have hcl : r.calls.length ≤ dotsUpto input (stripLen input - 1) := by
            rw [hr]
            show (walk E input (stripLen input) (maxdOf origindomain) finallen
              (stripLen input - 1) ⟨stripLen input - 1, stripLen input,
                List.replicate finallen NUL, 0, []⟩).2.calls.length ≤
              dotsUpto input (stripLen input - 1)
            simpa using hw
          unfold specNumLabels
          omega

/-- C5 witness: a successful two-label input gets exactly two
callbacks. -/
theorem claim5_witness :
    ((hrpz_hash E0 ['a', '.', 'b'] ['o'] (List.replicate 24 NUL) 24).get
        (by decide)).calls.length =
      specNumLabels ['a', '.', 'b'] -
        (if (['a', '.', 'b'] : List Char).getD 0 NUL = '.' then 1 else 0) :=
  (claim5_amended E0 ['a', '.', 'b'] ['o'] (List.replicate 24 NUL) 24 _
    (Option.some_get _).symm).1 (by decide)

/-- C6 counterexample: the input m*..foo contains a star that is not at
index 0, yet hrpz_hash fails with EMPTY_SUBLABEL - the double dot to the
right of the star is reached first - and not WILDCARD_NOT_AT_START. -/
theorem claim6_counterexample :
    (hrpz_hash E0 ['m', '*', '.', '.', 'f', 'o', 'o'] ['o']
        (List.replicate 16 NUL) 16).map HOut.err = some HErr.EMPTY_SUBLABEL ∧
      HErr.EMPTY_SUBLABEL ≠ HErr.WILDCARD_NOT_AT_START := by
  exact ⟨by decide, by decide⟩

/-- C6 amended: if the input contains a star anywhere in its walked
range and the star is not the entire leftmost label (star at index 0
alone before the first dot), the call never returns NONE - it fails with
WILDCARD_NOT_AT_START, or with EMPTY_SUBLABEL or TOO_LONG when a label
to the right of the star fails first (see the counterexample).  If a
call with a leading star returns NONE, the literal star-dot was
prepended unhashed - the output starts with star-dot - and the wildcard
callback was the last one, receiving the whole remaining input and the
final output. -/
theorem claim6_amended (E : Enc) (input origindomain final0 : List Char) (finallen : Nat) :
    (∀ r, hrpz_hash E input origindomain final0 finallen = some r →
      (∃ k, k < stripLen input ∧ input.getD k NUL = '*') →
      ¬(input.getD 0 NUL = '*' ∧ (stripLen input = 1 ∨ input.getD 1 NUL = '.')) →
      r.err ≠ HErr.NONE) ∧
    (∀ r, hrpz_hash E input origindomain final0 finallen = some r →
      r.err = HErr.NONE → input.getD 0 NUL = '*' →
      (∃ t, cstr r.buf = '*' :: '.' :: t) ∧
      r.calls.getLast? = some (input, cstr r.buf)) := by
  constructor
  · intro r hh ⟨k, hk, hks⟩ hshape herr
    obtain ⟨h5, ho⟩ := hash_early_checks hh (by rw [herr]; decide) (by rw [herr]; decide)
    rcases hash_some_walk h5 ho hh with ⟨hx, -⟩ | ⟨hx, -⟩ | ⟨h1, hnd, hr⟩
    · rw [herr] at hx
      cases hx
    · rw [herr] at hx
      cases hx
    · have hwn := @walk_none_nostar E input (stripLen input)
        (maxdOf origindomain) finallen (stripLen input - 1)
        ⟨stripLen input - 1, stripLen input, List.replicate finallen NUL, 0, []⟩
        (by show stripLen input - 1 + 1 ≤ stripLen input; omega)
        ⟨Nat.le_refl _, hnd⟩
        (by rw [hr] at herr; exact herr)
      obtain ⟨hna, hnb⟩ := hwn
      rcases Nat.eq_zero_or_pos k with hk0 | hkpos
    
      · subst hk0
        refine hshape ⟨hks, ?_⟩
        rcases Nat.lt_or_ge 1 (stripLen input) with hgt | hle
        · exact Or.inr (hnb hks (by omega))
        · exact Or.inl (by omega)
      · exact hna k hkpos (by omega) hks
  · intro r hh herr hstar0
    obtain ⟨h5, ho⟩ := hash_early_checks hh (by rw [herr]; decide) (by rw [herr]; decide)
    rcases hash_some_walk h5 ho hh with ⟨hx, -⟩ | ⟨hx, -⟩ | ⟨h1, hnd, hr⟩
    · rw [herr] at hx
      cases hx
    · rw [herr] at hx
      cases hx
    · have hwb := @walk_none_star_buf E input (stripLen input)
        (maxdOf origindomain) finallen (stripLen input - 1)
        ⟨stripLen input - 1, stripLen input, List.replicate finallen NUL, 0, []⟩
        (BufOkP_init finallen) hstar0
        (by rw [hr] at herr; exact herr)
      rw [hr]
      exact hwb

/-- C6 witness: a star after the first label is rejected, and an
accepted wildcard leaves a star-dot output with the wildcard callback
last. -/
theorem claim6_witness :
    ((hrpz_hash E0 ['x', '.', '*'] ['o'] (List.replicate 24 NUL) 24).get
        (by decide)).err ≠ HErr.NONE ∧
    ((∃ t, cstr ((hrpz_hash E0 ['*', '.', 'b'] ['o'] (List.replicate 24 NUL) 24).get
        (by decide)).buf = '*' :: '.' :: t) ∧
      ((hrpz_hash E0 ['*', '.', 'b'] ['o'] (List.replicate 24 NUL) 24).get
          (by decide)).calls.getLast? =
        some (['*', '.', 'b'],
          cstr ((hrpz_hash E0 ['*', '.', 'b'] ['o'] (List.replicate 24 NUL) 24).get
            (by decide)).buf)) :=
  ⟨(claim6_amended E0 ['x', '.', '*'] ['o'] (List.replicate 24 NUL) 24).1 _
      (Option.some_get _).symm ⟨2, by decide, by decide⟩ (by decide),
   (claim6_amended E0 ['*', '.', 'b'] ['o'] (List.replicate 24 NUL) 24).2 _
      (Option.some_get _).symm (by decide) (by decide)⟩

theorem getD_last_ne_dot {s : List Char} (hsne : s ≠ []) (hsl : s.getLast? ≠ some '.') :
    s.getD (s.length - 1) NUL ≠ '.' := by
  have hslen : 1 ≤ s.length := List.length_pos.mpr hsne
  have hsome : s[s.length - 1]? = some (s.getD (s.length - 1) NUL) := by
    cases h : s[s.length - 1]? with
    | none =>
      rw [List.getElem?_eq_none_iff] at h
      omega
    | some a =>
      rw [List.getD_eq_getElem?_getD, h]
      rfl
  intro hc
  apply hsl
  rw [List.getLast?_eq_getElem?, hsome, hc]

/-- Dropping a dot-terminated prefix from an input that hashes without
error still hashes without error, and the shorter output is a byte
suffix of the longer one: each emitted label hashes the cumulative
suffix of the input, so the labels of s contribute the same bytes in
both runs. -/
theorem hash_drop_prefix {E : Enc} {x s origindomain final0 : List Char} {fl : Nat}
    {r : HOut}
    (h5 : ¬fl < 5)
    (ho : ¬(origindomain = [] ∨ origindomain.getD 0 NUL = '.'))
    (hh : hrpz_hash E (x ++ s) origindomain final0 fl = some r)
    (herr : r.err = HErr.NONE)
    (hx : x = [] ∨ x.getLast? = some '.')
    (hsne : s ≠ [])
    (hsl : s.getLast? ≠ some '.')
    (hs0 : s.getD 0 NUL ≠ '.') :
    ∃ rs, hrpz_hash E s origindomain final0 fl = some rs ∧
      rs.err = HErr.NONE ∧ cstr rs.buf <:+ cstr r.buf := by
  have hslen : 1 ≤ s.length := List.length_pos.mpr hsne
  have hsd : s.getD (s.length - 1) NUL ≠ '.' := getD_last_ne_dot hsne hsl
  rcases hx with hxe | hxl
  · subst hxe
    rw [List.nil_append] at hh
    exact ⟨r, hh, herr, List.suffix_refl _⟩
  · have hxne : x ≠ [] := by
      intro hc
      subst hc
      simp at hxl
    have hxlen : 1 ≤ x.length := List.length_pos.mpr hxne
    have hxsome : x[x.length - 1]? = some (x.getD (x.length - 1) NUL) := by
      cases h : x[x.length - 1]? with
      | none =>
        rw [List.getElem?_eq_none_iff] at h
        omega
      | some a =>
        rw [List.getD_eq_getElem?_getD, h]
        rfl
    have hxd : x.getD (x.length - 1) NUL = '.' := by
      rw [List.getLast?_eq_getElem?, hxsome] at hxl
      exact Option.some_inj.mp hxl
    have hlen : (x ++ s).length = x.length + s.length := List.length_append x s
    have hidx : (x ++ s).length - 1 = s.length - 1 + x.length := by
      rw [hlen]
      omega
    have hund : (x ++ s).getD ((x ++ s).length - 1) NUL ≠ '.' := by
      rw [hidx, getD_shift]
      exact hsd
    have hune : x ++ s ≠ [] := by
      intro hc
      exact hsne (List.append_eq_nil.mp hc).2
    have huw := @hash_eq_nostrip E (x ++ s) origindomain final0 fl h5 ho hune hund
    rw [huw] at hh
    have hr := (Option.some_inj.mp hh).symm
    have hlab : s.length - 1 + x.length + 1 = s.length - 1 + 1 + x.length := by
      omega
    rw [hidx, hlen, hlab] at hr
    have hu1 : (walk E (x ++ s) (x.length + s.length) (maxdOf origindomain) fl
        (s.length - 1 + x.length)
        ⟨s.length - 1 + x.length, s.length - 1 + 1 + x.length,
          List.replicate fl NUL, 0, []⟩).1 = HErr.NONE := by
      rw [hr] at herr
      exact herr
    have hnsu := @walk_none_nostar E (x ++ s) (x.length + s.length) (maxdOf origindomain) fl
      (s.length - 1 + x.length)
      ⟨s.length - 1 + x.length, s.length - 1 + 1 + x.length, List.replicate fl NUL, 0, []⟩
      (by show s.length - 1 + x.length + 1 ≤ s.length - 1 + 1 + x.length; omega)
      ⟨Nat.le_refl _, by
        show (x ++ s).getD (s.length - 1 + x.length) NUL ≠ '.'
        rw [getD_shift]
        exact hsd⟩
      hu1
    have hnostar_s : ∀ j, 1 ≤ j → j ≤ s.length - 1 → s.getD j NUL ≠ '*' := by
      intro j h1 h2
      have := hnsu.1 (j + x.length) (by omega) (by omega)
      rwa [getD_shift] at this
    have hs0s : s.getD 0 NUL ≠ '*' := by
      intro hc
      have hj := hnsu.1 (0 + x.length) (by omega) (by omega)
      rw [getD_shift] at hj
      exact hj hc
    have hws := @walk_shift E x s (maxdOf origindomain) fl hxne hxd (s.length - 1)
      hs0s hs0 hnostar_s
      ⟨s.length - 1, s.length - 1 + 1, List.replicate fl NUL, 0, []⟩ (Nat.le_refl _)
    simp only [shiftSt] at hws
    by_cases hsw : (walk E s s.length (maxdOf origindomain) fl (s.length - 1)
        ⟨s.length - 1, s.length - 1 + 1, List.replicate fl NUL, 0, []⟩).1 = HErr.NONE
    · have hcont := hws.2 hsw
      refine ⟨⟨HErr.NONE,
        (walk E s s.length (maxdOf origindomain) fl (s.length - 1)
          ⟨s.length - 1, s.length - 1 + 1, List.replicate fl NUL, 0, []⟩).2.buf,
        (walk E s s.length (maxdOf origindomain) fl (s.length - 1)
          ⟨s.length - 1, s.length - 1 + 1, List.replicate fl NUL, 0, []⟩).2.finalcur,
        (walk E s s.length (maxdOf origindomain) fl (s.length - 1)
          ⟨s.length - 1, s.length - 1 + 1, List.replicate fl NUL, 0, []⟩).2.calls⟩,
        ?_, rfl, ?_⟩
      · rw [@hash_eq_nostrip E s origindomain final0 fl h5 ho hsne hsd, hsw]
      · rw [hr]
        by_cases hx1 : x.length = 1
        · rw [hcont, if_pos hx1]
        · rw [hcont, if_neg hx1]
          have hBs : BufOk fl (walk E s s.length (maxdOf origindomain) fl (s.length - 1)
              ⟨s.length - 1, s.length - 1 + 1, List.replicate fl NUL, 0, []⟩).2 :=
            walk_BufOk (BufOkP_init fl)
          exact @walk_mono E (x ++ s) (x.length + s.length) (maxdOf origindomain) fl
            (x.length - 2)
            ⟨x.length, x.length - 1,
              (walk E s s.length (maxdOf origindomain) fl (s.length - 1)
                ⟨s.length - 1, s.length - 1 + 1, List.replicate fl NUL, 0, []⟩).2.buf,
              (walk E s s.length (maxdOf origindomain) fl (s.length - 1)
                ⟨s.length - 1, s.length - 1 + 1, List.replicate fl NUL, 0, []⟩).2.finalcur,
              (walk E s s.length (maxdOf origindomain) fl (s.length - 1)
                ⟨s.length - 1, s.length - 1 + 1, List.replicate fl NUL, 0, []⟩).2.calls⟩
            hBs
    · obtain ⟨stU, hU⟩ := hws.1 hsw
      rw [hU] at hu1
      exact absurd hu1 hsw

/-- C8: cumulative-suffix property - if two inputs extend the same
suffix s by (possibly empty) dot-terminated prefixes and both hash
without error under the same key and origin, then hashing s alone also
succeeds and its output is a byte suffix of both outputs: the rightmost
encoded labels - those of s - are byte-identical in the two results,
because every label digest covers the cumulative suffix of the input
from that label rightwards. -/
theorem claim8 (E : Enc) (x1 x2 s origindomain b1 b2 : List Char) (fl : Nat)
    (r1 r2 : HOut)
    (hh1 : hrpz_hash E (x1 ++ s) origindomain b1 fl = some r1)
    (he1 : r1.err = HErr.NONE)
    (hh2 : hrpz_hash E (x2 ++ s) origindomain b2 fl = some r2)
    (he2 : r2.err = HErr.NONE)
    (hx1 : x1 = [] ∨ x1.getLast? = some '.')
    (hx2 : x2 = [] ∨ x2.getLast? = some '.')
    (hsne : s ≠ [])
    (hsl : s.getLast? ≠ some '.')
    (hs0 : s.getD 0 NUL ≠ '.') :
    ∃ rs, hrpz_hash E s origindomain b1 fl = some rs ∧ rs.err = HErr.NONE ∧
      cstr rs.buf <:+ cstr r1.buf ∧ cstr rs.buf <:+ cstr r2.buf := by
  obtain ⟨h5, ho⟩ := hash_early_checks hh1 (by rw [he1]; decide) (by rw [he1]; decide)
  obtain ⟨rs, hrs, hrse, hsuf1⟩ := hash_drop_prefix h5 ho hh1 he1 hx1 hsne hsl hs0
  obtain ⟨rt, hrt, -, hsuf2⟩ := hash_drop_prefix h5 ho hh2 he2 hx2 hsne hsl hs0
  have hsd : s.getD (s.length - 1) NUL ≠ '.' := getD_last_ne_dot hsne hsl
  have hb12 : hrpz_hash E s origindomain b1 fl = hrpz_hash E s origindomain b2 fl := by
    rw [@hash_eq_nostrip E s origindomain b1 fl h5 ho hsne hsd,
      @hash_eq_nostrip E s origindomain b2 fl h5 ho hsne hsd]
  rw [← hb12, hrs] at hrt
  have heq : rs = rt := Option.some_inj.mp hrt
  subst heq
  exact ⟨rs, hrs, hrse, hsuf1, hsuf2⟩

/-- C8 witness: a.cc and bb.cc share the suffix cc; hashing cc alone
gives an output that is a suffix of both full outputs. -/
theorem claim8_witness :
    ∃ rs, hrpz_hash E0 ['c', 'c'] ['o'] (List.replicate 24 NUL) 24 = some rs ∧
      rs.err = HErr.NONE ∧
      cstr rs.buf <:+
        cstr ((hrpz_hash E0 (['a', '.'] ++ ['c', 'c']) ['o']
          (List.replicate 24 NUL) 24).get (by decide)).buf ∧
      cstr rs.buf <:+
        cstr ((hrpz_hash E0 (['b', 'b', '.'] ++ ['c', 'c']) ['o']
          (List.replicate 24 'x') 24).get (by decide)).buf :=
  claim8 E0 ['a', '.'] ['b', 'b', '.'] ['c', 'c'] ['o'] (List.replicate 24 NUL)
    (List.replicate 24 'x') 24 _ _
    (Option.some_get _).symm (by decide)
    (Option.some_get _).symm (by decide)
    (Or.inr (by decide)) (Or.inr (by decide)) (by decide) (by decide) (by decide)
